import Mathlib

/-!
Verification of the anki-cards repository (Markdown → Anki deck extractor).

The Python sources under `src/anki_cards/` are shallowly embedded below:
pure functions become Lean functions; file-system queries are passed in as a
predicate on absolute paths (component lists); the YAML values a block parses
to are an explicit inductive type; Python dicts are association lists with
in-place-overwrite insertion; `list(set(..))` is modelled as first-occurrence
deduplication (only membership in the set is ever relied on downstream).
-/

/-! ## ASCII case folding (model of `re.IGNORECASE` / `str.lower` on ASCII) -/

def lcLetters : List Char := ['a', 'b', 'c', 'd', 'e', 'f', 'g', 'h', 'i', 'j',
  'k', 'l', 'm', 'n', 'o', 'p', 'q', 'r', 's', 't', 'u', 'v', 'w', 'x', 'y', 'z']

def ucTable : List (Char × Char) :=
  [('A', 'a'), ('B', 'b'), ('C', 'c'), ('D', 'd'), ('E', 'e'), ('F', 'f'),
   ('G', 'g'), ('H', 'h'), ('I', 'i'), ('J', 'j'), ('K', 'k'), ('L', 'l'),
   ('M', 'm'), ('N', 'n'), ('O', 'o'), ('P', 'p'), ('Q', 'q'), ('R', 'r'),
   ('S', 's'), ('T', 't'), ('U', 'u'), ('V', 'v'), ('W', 'w'), ('X', 'x'),
   ('Y', 'y'), ('Z', 'z')]

def lowerc (c : Char) : Char :=
  match ucTable.lookup c with
  | some l => l
  | none => c

theorem lookup_mem_pair : ∀ (l : List (Char × Char)) (c v : Char),
    l.lookup c = some v → (c, v) ∈ l := by
  intro l
  induction l with
  | nil => intro c v h; simp [List.lookup] at h
  | cons p rest ih =>
    intro c v h
    obtain ⟨k, w⟩ := p
    rw [List.lookup] at h
    cases hk : c == k with
    | true =>
      rw [hk] at h
      obtain rfl : w = v := by injection h
      obtain rfl : c = k := by simpa using hk
      exact List.mem_cons_self _ _
    | false =>
      rw [hk] at h
      exact List.mem_cons_of_mem _ (ih c v h)

theorem lowerc_cases (c : Char) : lowerc c = c ∨ lowerc c ∈ lcLetters := by
  unfold lowerc
  cases h : ucTable.lookup c with
  | none => exact Or.inl rfl
  | some l =>
    refine Or.inr ?_
    have hmem : (c, l) ∈ ucTable := lookup_mem_pair _ _ _ h
    have h2 : l ∈ ucTable.map Prod.snd := List.mem_map_of_mem Prod.snd hmem
    have h3 : ucTable.map Prod.snd = lcLetters := by rfl
    rwa [h3] at h2

theorem lowerc_fix {c t : Char} (hm : t ∉ lcLetters) (h : lowerc c = t) : c = t := by
  rcases lowerc_cases c with h1 | h1
  · rw [h1] at h; exact h
  · rw [h] at h1; exact absurd h1 hm

/-- Model of Python `str.lower()` restricted to ASCII input. -/
def lowerStr (s : String) : String := String.mk (s.data.map lowerc)

/-! ## Association lists: Python `dict` lookup and assignment -/

/-- `d.get(k)`: first binding wins (keys of a Python dict are unique anyway). -/
def alookup {α : Type} : List (String × α) → String → Option α
  | [], _ => none
  | (k, v) :: rest, key => if k = key then some v else alookup rest key

/-- `d[k] = v`: overwrite in place if the key exists, else append. -/
def dinsert : List (String × String) → String → String → List (String × String)
  | [], k, v => [(k, v)]
  | (k0, v0) :: rest, k, v =>
      if k0 = k then (k, v) :: rest else (k0, v0) :: dinsert rest k v

/-- Model of Python `list(set(xs))` keeping the first occurrence of each
element (only membership of the resulting collection is meaningful). -/
def mydedup : List String → List String
  | [] => []
  | x :: xs => if x ∈ xs then mydedup xs else x :: mydedup xs

theorem mem_mydedup {x : String} : ∀ {l : List String}, x ∈ mydedup l ↔ x ∈ l := by
  intro l
  induction l with
  | nil => simp [mydedup]
  | cons a as ih =>
    by_cases h : a ∈ as
    · rw [mydedup, if_pos h, ih, List.mem_cons]
      constructor
      · exact Or.inr
      · rintro (rfl | hm)
        · exact h
        · exact hm
    · rw [mydedup, if_neg h]
      simp [ih]

/-! ## Paths as component lists

An absolute path is its list of components below the root.  `resolvePath`
models `(md_file_dir / Path(src)).resolve()` from `main.py` (no symlinks:
`.` and empty components vanish, `..` pops, an absolute `src` ignores the
base directory). -/

def normalizeParts (l : List String) : List String :=
  l.foldl (fun acc c => if c = ".." then acc.dropLast else acc ++ [c]) []

/-- Split a character list on a separator (model of `str.split(sep)`). -/
def splitOnChar (sep : Char) : List Char → List (List Char)
  | [] => [[]]
  | c :: cs =>
    if c = sep then [] :: splitOnChar sep cs
    else
      match splitOnChar sep cs with
      | h :: t => (c :: h) :: t
      | [] => [[c]]

def resolvePath (mdDir : List String) (src : String) : List String :=
  let comps := ((splitOnChar '/' src.data).map String.mk).filter
    (fun c => c ≠ "" ∧ c ≠ ".")
  let base := match src.data with
    | '/' :: _ => []
    | _ => mdDir
  normalizeParts (base ++ comps)

/-- `str(path)` for an absolute path given by its components. -/
def pathToString (p : List String) : String := "/" ++ String.intercalate "/" p

/-- `path.name`: last component (empty for the filesystem root). -/
def lastName (p : List String) : String := p.getLastD ""

/-! ## The image tag regex

`IMG_SRC_RE = <img\s+[^>]*src="(?!https?://|data:)([^"]+)"[^>]*>` with
`re.IGNORECASE`.  The scanner below reproduces the backtracking semantics of
this pattern: after a case-insensitive `<img` and one whitespace character,
the greedy `[^>]*` prefers the latest viable `src="` occurrence before the
first `>`; the negative lookahead rules out remote sources; the value is the
maximal run of non-quote characters and must be non-empty; the tail consumes
up to and including the next `>`. -/

/-- Python `\s` on ASCII input. -/
def isPySpace (c : Char) : Bool :=
  c = ' ' ∨ c = '\t' ∨ c = '\n' ∨ c = '\r' ∨ c = '\x0b' ∨ c = '\x0c'

/-- Case-insensitive prefix test (the pattern is given in lowercase). -/
def ciPref : List Char → List Char → Bool
  | [], _ => true
  | _ :: _, [] => false
  | p :: ps, c :: cs => (lowerc c == p) && ciPref ps cs

/-- The negative lookahead `(?!https?://|data:)` (case-insensitive). -/
def lookaheadBad (s : List Char) : Bool :=
  ciPref "http://".data s || ciPref "https://".data s || ciPref "data:".data s

/-- Continuation of the image pattern from a candidate `src="` position:
`src="` (case-insensitive), lookahead, value `[^"]+`, closing quote, then
`[^>]*>`.  Returns the captured value and the rest after the match. -/
def contAt (s : List Char) : Option (String × List Char) :=
  if ciPref "src=\"".data s then
    let afterSrc := s.drop 5
    if lookaheadBad afterSrc then none
    else
      let value := afterSrc.takeWhile (fun c => c ≠ '\x22')
      if value.isEmpty then none
      else
        match afterSrc.dropWhile (fun c => c ≠ '\x22') with
        | '\x22' :: rest2 =>
          match rest2.dropWhile (fun c => c ≠ '>') with
          | '>' :: rest4 => some (String.mk value, rest4)
          | _ => none
        | _ => none
  else none

/-- Backtracking search for the last `src="` candidate the greedy `[^>]*`
can reach (candidates beyond the first `>` are unreachable). -/
def tagSearch : List Char → Option (String × List Char)
  | [] => none
  | c :: cs =>
    match (if c = '>' then none else tagSearch cs) with
    | some res => some res
    | none => contAt (c :: cs)

/-- One attempt of `IMG_SRC_RE` anchored at the start of `s`; on success
returns (matched tag text, captured src value, rest after the match). -/
def matchAt (s : List Char) : Option (List Char × String × List Char) :=
  if ciPref "<img".data s then
    match s.drop 4 with
    | c :: body =>
      if isPySpace c then
        match tagSearch body with
        | some (v, rest) => some (s.take (s.length - rest.length), v, rest)
        | none => none
      else none
    | [] => none
  else none

/-- Python `str.replace(old, new, 1)` (case-sensitive, first occurrence). -/
def replaceFirst (s pat new : List Char) : List Char :=
  match s with
  | [] => if pat = [] then new else []
  | c :: cs => if pat.isPrefixOf s then new ++ s.drop pat.length else c :: replaceFirst cs pat new

/-- The body of `replace_src` in `process_field_for_images`: resolve the
captured src against the Markdown file directory; if the file exists, record
its absolute path and rewrite the literal `src="orig"` (first occurrence,
case-sensitive) to `src="basename"`; otherwise keep the tag untouched. -/
def replace_src (fsys : List String → Bool) (mdDir : List String)
    (tag : List Char) (originalSrc : String) : List Char × List String :=
  let absImgPath := resolvePath mdDir originalSrc
  if fsys absImgPath then
    let filename := lastName absImgPath
    (replaceFirst tag ("src=\"".data ++ originalSrc.data ++ ['\x22'])
        ("src=\"".data ++ filename.data ++ ['\x22']),
     [pathToString absImgPath])
  else (tag, [])

/-- `IMG_SRC_RE.sub(replace_src, content)`: scan left to right, replacing
each non-overlapping match; collect the media paths recorded by the
replacement calls in order.  Fuel-driven (each step consumes at least one
character, so fuel = length of the input suffices). -/
def imgScan (fsys : List String → Bool) (mdDir : List String) :
    Nat → List Char → List Char × List String
  | 0, l => (l, [])
  | _ + 1, [] => ([], [])
  | fuel + 1, c :: cs =>
    match matchAt (c :: cs) with
    | some (tagChars, v, rest) =>
      let rs := replace_src fsys mdDir tagChars v
      let pr := imgScan fsys mdDir fuel rest
      (rs.1 ++ pr.1, rs.2 ++ pr.2)
    | none =>
      let pr := imgScan fsys mdDir fuel cs
      (c :: pr.1, pr.2)

/-- `process_field_for_images(field_content, md_file_dir)` from `main.py`:
returns the content with local image sources rewritten, together with
`list(set(found_media_in_field))`. -/
def process_field_for_images (fsys : List String → Bool) (mdDir : List String)
    (field_content : String) : String × List String :=
  let r := imgScan fsys mdDir field_content.data.length field_content.data
  (String.mk r.1, mydedup r.2)

/-! ## The template field regex

`TEMPLATE_FIELD_RE = \x7b\x7b([#/^]?)([^\x7d]+?)\x7d\x7d` (two opening
braces, an optional section modifier, a lazy non-empty run of non-brace
characters, two closing braces).  Because the name characters exclude the
closing brace, the lazy quantifier is forced to stop exactly at the first
closing brace, which must be doubled; if the name consists of a single
modifier character, the engine backtracks and captures the modifier itself
as the name. -/

/-- Attempt of the template pattern just after the two opening braces;
returns (group 2, rest after the two closing braces). -/
def tmplMatchAt (cs : List Char) : Option (String × List Char) :=
  let nm0 := cs.takeWhile (fun c => c ≠ '\x7d')
  match nm0, cs.dropWhile (fun c => c ≠ '\x7d') with
  | [], _ => none
  | _, '\x7d' :: '\x7d' :: rest2 =>
    let name :=
      match nm0 with
      | m :: c2 :: t =>
        if m = '#' ∨ m = '/' ∨ m = '^' then String.mk (c2 :: t) else String.mk nm0
      | _ => String.mk nm0
    some (name, rest2)
  | _, _ => none

/-- `TEMPLATE_FIELD_RE.finditer`: all captured names, left to right,
non-overlapping (fuel-driven; fuel = input length suffices). -/
def findFieldsAux : Nat → List Char → List String
  | 0, _ => []
  | _ + 1, [] => []
  | fuel + 1, '\x7b' :: '\x7b' :: cs =>
    (match tmplMatchAt cs with
     | some (nm, rest) => nm :: findFieldsAux fuel rest
     | none => findFieldsAux fuel ('\x7b' :: cs))
  | fuel + 1, _ :: cs => findFieldsAux fuel cs

/-- All field names referenced by a template format string. -/
def findFields (fmt : String) : List String := findFieldsAux fmt.data.length fmt.data

/-! ## YAML values (result of `yaml.safe_load` on a block body) -/

inductive Yaml where
  | nullv : Yaml
  | b : Bool → Yaml
  | s : String → Yaml
  | i : Int → Yaml
  | arr : List Yaml → Yaml
  | map : List (String × Yaml) → Yaml
  deriving Repr

mutual

def yamlBeq : Yaml → Yaml → Bool
  | .nullv, .nullv => true
  | .b x, .b y => x == y
  | .s x, .s y => x == y
  | .i x, .i y => x == y
  | .arr xs, .arr ys => yamlBeqList xs ys
  | .map xs, .map ys => yamlBeqPairs xs ys
  | _, _ => false

def yamlBeqList : List Yaml → List Yaml → Bool
  | [], [] => true
  | x :: xs, y :: ys => yamlBeq x y && yamlBeqList xs ys
  | _, _ => false

def yamlBeqPairs : List (String × Yaml) → List (String × Yaml) → Bool
  | [], [] => true
  | (k, v) :: xs, (k2, v2) :: ys => k == k2 && yamlBeq v v2 && yamlBeqPairs xs ys
  | _, _ => false

end

mutual

theorem yamlBeq_iff : ∀ (a b : Yaml), yamlBeq a b = true ↔ a = b
  | .nullv, .nullv => by simp [yamlBeq]
  | .b x, .b y => by simp [yamlBeq]
  | .s x, .s y => by simp [yamlBeq]
  | .i x, .i y => by simp [yamlBeq]
  | .arr xs, .arr ys => by
    simp only [yamlBeq, yamlBeqList_iff xs ys]
    exact ⟨fun h => by rw [h], fun h => by injection h⟩
  | .map xs, .map ys => by
    simp only [yamlBeq, yamlBeqPairs_iff xs ys]
    exact ⟨fun h => by rw [h], fun h => by injection h⟩
  | .nullv, .b _ => by simp [yamlBeq]
  | .nullv, .s _ => by simp [yamlBeq]
  | .nullv, .i _ => by simp [yamlBeq]
  | .nullv, .arr _ => by simp [yamlBeq]
  | .nullv, .map _ => by simp [yamlBeq]
  | .b _, .nullv => by simp [yamlBeq]
  | .b _, .s _ => by simp [yamlBeq]
  | .b _, .i _ => by simp [yamlBeq]
  | .b _, .arr _ => by simp [yamlBeq]
  | .b _, .map _ => by simp [yamlBeq]
  | .s _, .nullv => by simp [yamlBeq]
  | .s _, .b _ => by simp [yamlBeq]
  | .s _, .i _ => by simp [yamlBeq]
  | .s _, .arr _ => by simp [yamlBeq]
  | .s _, .map _ => by simp [yamlBeq]
  | .i _, .nullv => by simp [yamlBeq]
  | .i _, .b _ => by simp [yamlBeq]
  | .i _, .s _ => by simp [yamlBeq]
  | .i _, .arr _ => by simp [yamlBeq]
  | .i _, .map _ => by simp [yamlBeq]
  | .arr _, .nullv => by simp [yamlBeq]
  | .arr _, .b _ => by simp [yamlBeq]
  | .arr _, .s _ => by simp [yamlBeq]
  | .arr _, .i _ => by simp [yamlBeq]
  | .arr _, .map _ => by simp [yamlBeq]
  | .map _, .nullv => by simp [yamlBeq]
  | .map _, .b _ => by simp [yamlBeq]
  | .map _, .s _ => by simp [yamlBeq]
  | .map _, .i _ => by simp [yamlBeq]
  | .map _, .arr _ => by simp [yamlBeq]

theorem yamlBeqList_iff : ∀ (xs ys : List Yaml), yamlBeqList xs ys = true ↔ xs = ys
  | [], [] => by simp [yamlBeqList]
  | x :: xs, y :: ys => by
    simp only [yamlBeqList, Bool.and_eq_true, yamlBeq_iff x y, yamlBeqList_iff xs ys]
    constructor
    · rintro ⟨rfl, rfl⟩; rfl
    · intro h; injection h with h1 h2; exact ⟨h1, h2⟩
  | [], _ :: _ => by simp [yamlBeqList]
  | _ :: _, [] => by simp [yamlBeqList]

theorem yamlBeqPairs_iff : ∀ (xs ys : List (String × Yaml)),
    yamlBeqPairs xs ys = true ↔ xs = ys
  | [], [] => by simp [yamlBeqPairs]
  | (k, v) :: xs, (k2, v2) :: ys => by
    simp only [yamlBeqPairs, Bool.and_eq_true, yamlBeq_iff v v2, yamlBeqPairs_iff xs ys,
      beq_iff_eq]
    constructor
    · rintro ⟨⟨rfl, rfl⟩, rfl⟩; rfl
    · intro h
      injection h with h1 h2
      obtain ⟨rfl, rfl⟩ := Prod.mk.injEq .. ▸ h1
      exact ⟨⟨rfl, rfl⟩, h2⟩
  | [], _ :: _ => by simp [yamlBeqPairs]
  | _ :: _, [] => by simp [yamlBeqPairs]

end

instance : BEq Yaml := ⟨yamlBeq⟩

instance : DecidableEq Yaml := fun a b => decidable_of_iff _ (yamlBeq_iff a b)

/-- Escape used by the Python `repr` of a string (quote character given). -/
def pyEscape (q : Char) (s : String) : String :=
  String.mk (s.data.foldr (fun c acc =>
    if c = '\\' then '\\' :: '\\' :: acc
    else if c = '\n' then '\\' :: 'n' :: acc
    else if c = '\t' then '\\' :: 't' :: acc
    else if c = '\r' then '\\' :: 'r' :: acc
    else if c = q then '\\' :: c :: acc
    else c :: acc) [])

mutual

/-- Python `repr` of a YAML value (strings prefer single quotes; a string
containing a single quote but no double quote is double-quoted). -/
def pyRepr : Yaml → String
  | .nullv => "None"
  | .b true => "True"
  | .b false => "False"
  | .s str =>
    if str.data.contains '\x27' ∧ ¬ str.data.contains '\x22'
    then "\x22" ++ pyEscape '\x22' str ++ "\x22"
    else "\x27" ++ pyEscape '\x27' str ++ "\x27"
  | .i n => toString n
  | .arr xs => "[" ++ String.intercalate ", " (pyReprList xs) ++ "]"
  | .map kvs => "\x7b" ++ String.intercalate ", " (pyReprPairs kvs) ++ "\x7d"

def pyReprList : List Yaml → List String
  | [] => []
  | x :: xs => pyRepr x :: pyReprList xs

def pyReprPairs : List (String × Yaml) → List String
  | [] => []
  | (k, v) :: kvs => (pyRepr (.s k) ++ ": " ++ pyRepr v) :: pyReprPairs kvs

end

/-- Python `str()` of a YAML value (as applied to a block field value). -/
def pyStr : Yaml → String
  | .s str => str
  | v => pyRepr v

/-- Rendering of an optional string in an f-string: `None` prints as
`"None"`. -/
def pyOptStr : Option String → String
  | some s => s
  | none => "None"

/-- `d.get(k)` on a parsed block followed by an `is None` test: both an
absent key and an explicit `null` value yield `None`. -/
def ygetOpt (kvs : List (String × Yaml)) (k : String) : Option Yaml :=
  match alookup kvs k with
  | some .nullv => none
  | some v => some v
  | none => none

/-- `d.get(k, default)` on a parsed block: the stored value (even `null`)
when the key is present, the default otherwise. -/
def ygetD (kvs : List (String × Yaml)) (k : String) (dflt : Yaml) : Yaml :=
  match alookup kvs k with
  | some v => v
  | none => dflt

/-- Model of Python `sorted()` on strings (stable insertion sort). -/
def insertSorted (x : String) : List String → List String
  | [] => [x]
  | y :: ys => if x ≤ y then x :: y :: ys else y :: insertSorted x ys

def sortStrings (l : List String) : List String := l.foldr insertSorted []

/-! ## Schema model and validation (`model_from_yaml.py`) -/

structure AnkiField where
  name : String
  deriving DecidableEq, Repr

structure AnkiTemplate where
  name : String
  qfmt : String
  afmt : String
  deriving DecidableEq, Repr

/-- The raw, typed data handed to `AnkiModelDefinition.model_validate`
before any validator has run. -/
structure RawModel where
  id : Int
  name : String
  fields : List AnkiField
  templates : List AnkiTemplate
  yaml_field_map : Option (List (String × String))
  css : String
  deriving DecidableEq, Repr

/-- The validated schema (`yaml_field_map` has been synthesized when it was
absent, so it is always present afterwards; we keep the `Option` of the
Python attribute). -/
structure AnkiModelDefinition where
  id : Int
  name : String
  fields : List AnkiField
  templates : List AnkiTemplate
  yaml_field_map : Option (List (String × String))
  css : String
  deriving DecidableEq, Repr

/-- Structured rendering of the `ValueError`s raised by the validators. -/
inductive VErr where
  | emptyList : VErr
  | idNotPositive : VErr
  | undefinedTemplateField : String → List String → Bool → VErr
  | defaultMapTooFewFields : VErr
  | unmappedFields : List String → VErr
  deriving DecidableEq, Repr

def builtinNames : List String := ["FrontSide", "Tags", "Type", "Deck", "Subdeck", "Card"]

/-- `set(references in fmt) - builtins - declared`, i.e. the referenced
names that are neither declared fields nor builtin (membership-faithful
rendering of the Python set difference). -/
def missingIn (declared : List String) (fmt : String) : List String :=
  (mydedup (findFields fmt)).filter
    (fun nm => ¬ builtinNames.contains nm ∧ ¬ declared.contains nm)

def checkTemplatesGo (declared : List String) : List AnkiTemplate → Except VErr Unit
  | [] => .ok ()
  | t :: rest =>
    let mq := missingIn declared t.qfmt
    if ¬ mq.isEmpty then .error (.undefinedTemplateField t.name mq true)
    else
      let ma := missingIn declared t.afmt
      if ¬ ma.isEmpty then .error (.undefinedTemplateField t.name ma false)
      else checkTemplatesGo declared rest

/-- `check_template_fields_exist`: every field referenced by a template
must be declared, except the builtin names. -/
def check_template_fields_exist (r : RawModel) : Except VErr Unit :=
  checkTemplatesGo (r.fields.map (fun f => f.name)) r.templates

/-- The default `q`/`a`(/`tags`) map synthesized when no explicit
`yaml_field_map` was supplied; fails with fewer than two fields. -/
def default_map_for (fields : List AnkiField) : Except VErr (List (String × String)) :=
  match fields with
  | f0 :: f1 :: _ =>
    .ok ([("q", f0.name), ("a", f1.name)] ++
      (match fields.find? (fun f => lowerStr f.name == "tags") with
       | some f => [("tags", f.name)]
       | none => []))
  | _ => .error .defaultMapTooFewFields

/-- `set_default_yaml_field_map`: synthesize the default map when absent,
then require every mapped field name to be declared. -/
def set_default_yaml_field_map (r : RawModel) : Except VErr (List (String × String)) :=
  match (match r.yaml_field_map with
         | none => default_map_for r.fields
         | some m => .ok m) with
  | .error e => .error e
  | .ok m =>
    let defined := r.fields.map (fun f => f.name)
    let missing := (m.map (fun kv => kv.2)).filter (fun v => ¬ defined.contains v)
    if ¬ missing.isEmpty then .error (.unmappedFields missing)
    else .ok m

/-- `AnkiModelDefinition.model_validate`: pydantic runs the field
validators in field-declaration order (`id` positivity, then non-emptiness
of `fields` and `templates`), then the model validators in definition order
(`check_template_fields_exist`, then `set_default_yaml_field_map`). -/
def validateModel (r : RawModel) : Except VErr AnkiModelDefinition :=
  if r.id ≤ 0 then .error .idNotPositive
  else if r.fields.isEmpty then .error .emptyList
  else if r.templates.isEmpty then .error .emptyList
  else
    match check_template_fields_exist r with
    | .error e => .error e
    | .ok _ =>
      match set_default_yaml_field_map r with
      | .error e => .error e
      | .ok m =>
        .ok { id := r.id, name := r.name, fields := r.fields,
              templates := r.templates, yaml_field_map := some m, css := r.css }

/-! ## Card extraction (`main.py`) -/

/-- `calculate_deck_name(root_dir, filepath)`: the name of the scan root
followed by the directory components of the path relative to the root
(filename excluded), joined by `::`.  Paths are component lists with
`filepath` lying below `root_dir`. -/
def calculate_deck_name (root_dir filepath : List String) : String :=
  let relative_path := filepath.drop root_dir.length
  let parts := root_dir.getLastD "" :: relative_path.dropLast
  if ¬ parts.isEmpty then String.intercalate "::" parts else root_dir.getLastD ""

/-- The result of parsing one fenced `anki` block body with
`yaml.safe_load` (a parse error is caught and skips the block). -/
inductive BlockParse where
  | err : String → BlockParse
  | ok : Yaml → BlockParse
  deriving DecidableEq, Repr

/-- One extracted card dictionary as built by `find_anki_cards_in_file`. -/
structure CardDict where
  fields : List (String × String)
  tags : Yaml
  deck : Yaml
  guid_basis : String
  deriving DecidableEq, Repr

/-- The `for yaml_key, field_name in model_def.yaml_field_map.items()`
loop: skip the reserved key `tags`; a key that is absent or null aborts the
whole card (`processed_ok = False`); otherwise stringify, run image
processing, store under the mapped field name and accumulate media. -/
def buildFields (fsys : List String → Bool) (mdDir : List String)
    (kvs : List (String × Yaml)) :
    List (String × String) → List (String × String) → List String →
    Option (List (String × String) × List String)
  | [], acc, med => some (acc, med)
  | (yaml_key, field_name) :: rest, acc, med =>
    if yaml_key = "tags" then buildFields fsys mdDir kvs rest acc med
    else
      match ygetOpt kvs yaml_key with
      | none => none
      | some v =>
        let pr := process_field_for_images fsys mdDir (pyStr v)
        buildFields fsys mdDir kvs rest (dinsert acc field_name pr.1) (med ++ pr.2)

/-- Processing of one parsed block inside the `try` of
`find_anki_cards_in_file`: non-mapping bodies and bodies missing a mapped
key yield no card (`none`); the lines handling a mapped `tags` field are
dead code in the source (`pass`) and therefore absent here. -/
def processBlock (fsys : List String → Bool) (mdDir : List String)
    (model : AnkiModelDefinition) (sourceFileFieldName : Option String)
    (defaultDeckName relativeFilepath : String) (raw : Yaml) :
    Option (CardDict × List String) :=
  match raw with
  | .map kvs =>
    match model.yaml_field_map with
    | none => none
    | some items =>
      match buildFields fsys mdDir kvs items [] [] with
      | none => none
      | some (cf0, card_media) =>
        let card_fields :=
          match sourceFileFieldName with
          | some sf => dinsert cf0 sf relativeFilepath
          | none => cf0
        let card_tags := ygetD kvs "tags" (.arr [])
        let deckVal := ygetD kvs "deck" (.s defaultDeckName)
        let guid_basis :=
          pyOptStr (alookup card_fields ((alookup items "q").getD "")) ++ "|" ++
          pyOptStr (alookup card_fields ((alookup items "a").getD "")) ++ "|" ++
          pyStr deckVal ++ "|" ++ relativeFilepath
        some ({ fields := card_fields, tags := card_tags, deck := deckVal,
                guid_basis := guid_basis }, card_media)
  | .nullv => none
  | .b _ => none
  | .s _ => none
  | .i _ => none
  | .arr _ => none

/-- `find_anki_cards_in_file`: the file has been read and its fenced
`anki` blocks located and YAML-parsed upstream (`blocks`, in document
order); every failing block is skipped and the per-file media set is
returned as a deduplicated list. -/
def find_anki_cards_in_file (fsys : List String → Bool)
    (root_dir filepath : List String) (model : AnkiModelDefinition)
    (blocks : List BlockParse) : List CardDict × List String :=
  let default_deck_name := calculate_deck_name root_dir filepath
  let md_dir := filepath.dropLast
  let relative_filepath := String.intercalate "/" (filepath.drop root_dir.length)
  let source_file_field_name :=
    (model.fields.find? (fun f => lowerStr f.name == "sourcefile")).map (fun f => f.name)
  let res := blocks.foldl (fun acc b =>
    match b with
    | .err _ => acc
    | .ok raw =>
      match processBlock fsys md_dir model source_file_field_name
          default_deck_name relative_filepath raw with
      | none => acc
      | some (c, med) => (acc.1 ++ [c], acc.2 ++ med)) ([], [])
  (res.1, mydedup res.2)

/-! ## Package generation (`generate_anki_package`)

`genanki` is an external collaborator: its `Model`, `Deck`, `Note`,
`Package` are plain records here, and Python `hash` and `genanki.guid_for`
are opaque parameters. -/

structure GNote where
  guid : String
  fields : List String
  tags : Yaml
  deriving DecidableEq, Repr

structure GDeck where
  deck_id : Int
  name : Yaml
  notes : List GNote
  deriving DecidableEq, Repr

structure GPackage where
  decks : List GDeck
  media_files : List String
  deriving DecidableEq, Repr

/-- `decks[deck_name].add_note(note)`: append to the (unique) deck with the
given name. -/
def addNote : List GDeck → Yaml → GNote → List GDeck
  | [], _, _ => []
  | d :: rest, dn, n =>
    if d.name = dn then { d with notes := d.notes ++ [n] } :: rest
    else d :: addNote rest dn n

/-- One iteration of the card loop in `generate_anki_package`: create the
deck on first sight of its name, order the field values by the declared
model fields (missing fields default to the empty string), and add the
note. -/
def packStep (guidFor : String → String) (hashY : Yaml → Int)
    (deck_id_base : Int) (model_field_names : List String)
    (decks : List GDeck) (card_data : CardDict) : List GDeck :=
  let deck_name := card_data.deck
  let decks :=
    if decks.any (fun d => d.name == deck_name) then decks
    else decks ++ [{ deck_id := deck_id_base + (hashY deck_name).natAbs % 100000000,
                     name := deck_name, notes := [] }]
  let ordered_fields :=
    model_field_names.map (fun n => (alookup card_data.fields n).getD "")
  let note : GNote :=
    { guid := guidFor card_data.guid_basis, fields := ordered_fields,
      tags := card_data.tags }
  addNote decks deck_name note

/-- `generate_anki_package(card_data_list, media_files, anki_model, ...)`
with the output artifact modelled as a `GPackage` value: `none` exactly
when the function warns and returns before building a package. -/
def generate_anki_package (guidFor : String → String) (hashS : String → Int)
    (hashY : Yaml → Int) (card_data_list : List CardDict)
    (media_files : List String) (model_name : String)
    (model_field_names : List String) : Option GPackage :=
  let deck_id_base : Int := 2000000000 + (hashS model_name).natAbs % 500000000
  let decks := card_data_list.foldl
    (packStep guidFor hashY deck_id_base model_field_names) []
  if decks.isEmpty then none
  else some { decks := decks, media_files := sortStrings (mydedup media_files) }

/-! ## Small facts about the building blocks -/

theorem mem_alookup_getD {α : Type} {l : List (String × α)} {k : String} {v : α}
    (h : alookup l k = some v) : (k, v) ∈ l := by
  induction l with
  | nil => simp [alookup] at h
  | cons p rest ih =>
    obtain ⟨k0, v0⟩ := p
    rw [alookup] at h
    by_cases hk : k0 = k
    · rw [if_pos hk] at h
      obtain rfl : v0 = v := by injection h
      subst hk
      exact List.mem_cons_self _ _
    · rw [if_neg hk] at h
      exact List.mem_cons_of_mem _ (ih h)

theorem alookup_dinsert_self (l : List (String × String)) (k v : String) :
    alookup (dinsert l k v) k = some v := by
  induction l with
  | nil => simp [dinsert, alookup]
  | cons p rest ih =>
    obtain ⟨k0, v0⟩ := p
    rw [dinsert]
    by_cases hk : k0 = k
    · rw [if_pos hk, alookup, if_pos rfl]
    · rw [if_neg hk, alookup, if_neg hk]
      exact ih

theorem alookup_dinsert_other (l : List (String × String)) (k v k2 : String)
    (h : k ≠ k2) : alookup (dinsert l k v) k2 = alookup l k2 := by
  induction l with
  | nil => simp [dinsert, alookup, if_neg h]
  | cons p rest ih =>
    obtain ⟨k0, v0⟩ := p
    rw [dinsert]
    by_cases hk : k0 = k
    · rw [if_pos hk, alookup, if_neg h, alookup, hk, if_neg h]
    · rw [if_neg hk, alookup, alookup]
      by_cases hk2 : k0 = k2
      · rw [if_pos hk2, if_pos hk2]
      · rw [if_neg hk2, if_neg hk2]
        exact ih

/-- Keys present after a Python dict assignment. -/
theorem dinsert_keys (l : List (String × String)) (k v : String) :
    ∀ k2, (∃ v2, (k2, v2) ∈ dinsert l k v) → k2 = k ∨ ∃ v2, (k2, v2) ∈ l := by
  induction l with
  | nil =>
    intro k2 ⟨v2, hm⟩
    simp [dinsert] at hm
    exact Or.inl hm.1
  | cons p rest ih =>
    obtain ⟨k0, v0⟩ := p
    intro k2 ⟨v2, hm⟩
    rw [dinsert] at hm
    by_cases hk : k0 = k
    · rw [if_pos hk] at hm
      rcases List.mem_cons.mp hm with heq | hm2
      · obtain ⟨rfl, rfl⟩ : k2 = k ∧ v2 = v := by simpa using heq
        exact Or.inl rfl
      · exact Or.inr ⟨v2, List.mem_cons_of_mem _ hm2⟩
    · rw [if_neg hk] at hm
      rcases List.mem_cons.mp hm with heq | hm2
      · obtain ⟨rfl, rfl⟩ : k2 = k0 ∧ v2 = v0 := by simpa using heq
        exact Or.inr ⟨v2, List.mem_cons_self _ _⟩
      · rcases ih k2 ⟨v2, hm2⟩ with h1 | ⟨v3, h1⟩
        · exact Or.inl h1
        · exact Or.inr ⟨v3, List.mem_cons_of_mem _ h1⟩

/-! ## C7 -/

/-- C7: with an empty aggregated card list no deck group is ever formed, so
`generate_anki_package` warns and returns `none` — no package value is
constructed and nothing is written. -/
theorem generate_anki_package_empty_input (guidFor : String → String)
    (hashS : String → Int) (hashY : Yaml → Int) (media : List String)
    (model_name : String) (model_field_names : List String) :
    generate_anki_package guidFor hashS hashY [] media model_name model_field_names
      = none := rfl

/-! ## C2

The source `calculate_deck_name(root_dir, filepath)` takes no
include-filename parameter at all (the repository's own tests call it as
`calculate_deck_name(root_dir, filepath, include_filename=True)`, which the
source signature rejects); the computed name never contains the filename
segment.  The theorem evaluates the embedded source function on the
example paths of the claim. -/

/-- C2: the code behaviour on the claim's example paths: the root name plus
the intermediate directory components joined by `::`; a file directly under
the root yields just the root name; no variant with the filename appended
is producible because the source function has no such parameter. -/
theorem calculate_deck_name_code_examples :
    calculate_deck_name ["rootdir"] ["rootdir", "a", "b", "file.md"] = "rootdir::a::b" ∧
    calculate_deck_name ["rootdir"] ["rootdir", "file.md"] = "rootdir" := by
  exact ⟨rfl, rfl⟩

/-! ## C3 -/

/-- The mapping the claim describes: first field to `q`, second to `a`,
plus `tags` to a case-insensitively `tags`-named field when one exists. -/
def synthesizedMap (fields : List AnkiField) : List (String × String) :=
  match fields with
  | f0 :: f1 :: _ =>
    [("q", f0.name), ("a", f1.name)] ++
      (match fields.find? (fun f => lowerStr f.name == "tags") with
       | some f => [("tags", f.name)]
       | none => [])
  | _ => []

theorem synthesized_values_declared (fields : List AnkiField) (f0 f1 : AnkiField)
    (rest : List AnkiField) (hf : fields = f0 :: f1 :: rest) :
    ∀ v ∈ (synthesizedMap fields).map (fun kv => kv.2),
      (fields.map (fun f => f.name)).contains v = true := by
  intro v hv
  subst hf
  rw [synthesizedMap] at hv
  rw [List.map_append] at hv
  rcases List.mem_append.mp hv with h1 | h1
  · simp only [List.map_cons, List.map_nil, List.mem_cons] at h1
    rcases h1 with rfl | h2
    · exact List.elem_eq_true_of_mem (by simp)
    · rcases h2 with rfl | h3
      · exact List.elem_eq_true_of_mem (by simp)
      · simp at h3
  · cases hfind : (f0 :: f1 :: rest).find? (fun f => lowerStr f.name == "tags") with
    | none => rw [hfind] at h1; simp at h1
    | some f =>
      rw [hfind] at h1
      simp only [List.map_cons, List.map_nil, List.mem_cons] at h1
      rcases h1 with rfl | h2
      · exact List.elem_eq_true_of_mem
          (List.mem_map_of_mem _ (List.mem_of_find?_eq_some hfind))
      · simp at h2

/-- C3: for a schema with no explicit key-to-field mapping, the
`set_default_yaml_field_map` validator synthesizes
`q ↦ first field, a ↦ second field` (plus `tags` when a case-insensitively
`tags`-named field exists) whenever at least two fields are declared, and
the validated model carries exactly that map; with fewer than two fields
validation fails. -/
theorem default_yaml_field_map_synthesis (r : RawModel)
    (hnone : r.yaml_field_map = none) :
    (2 ≤ r.fields.length →
      set_default_yaml_field_map r = .ok (synthesizedMap r.fields) ∧
      ∀ m, validateModel r = .ok m →
        m.yaml_field_map = some (synthesizedMap r.fields)) ∧
    (r.fields.length < 2 → ∃ e, validateModel r = .error e) := by
  constructor
  · intro hlen
    obtain ⟨f0, f1, rest, hf⟩ : ∃ f0 f1 rest, r.fields = f0 :: f1 :: rest := by
      cases hl : r.fields with
      | nil => rw [hl] at hlen; simp at hlen
      | cons f0 t =>
        cases ht : t with
        | nil => rw [hl, ht] at hlen; simp at hlen
        | cons f1 rest => subst ht; exact ⟨f0, f1, rest, rfl⟩
    have hstep : set_default_yaml_field_map r = .ok (synthesizedMap r.fields) := by
      have hdm : default_map_for r.fields = .ok (synthesizedMap r.fields) := by
        rw [hf, default_map_for, synthesizedMap]
      rw [set_default_yaml_field_map, hnone, hdm]
      have hmiss : ((synthesizedMap r.fields).map (fun kv => kv.2)).filter
          (fun v => ¬ (r.fields.map (fun f => f.name)).contains v) = [] := by
        rw [List.filter_eq_nil_iff]
        intro v hv
        have h5 := synthesized_values_declared r.fields f0 f1 rest hf v hv
        simp only [h5]
        decide
      simp only [hmiss]
      rfl
    refine ⟨hstep, ?_⟩
    intro m hm
    rw [validateModel] at hm
    split_ifs at hm
    cases hct : check_template_fields_exist r with
    | error e => rw [hct] at hm; exact absurd hm (by simp)
    | ok u =>
      rw [hct, hstep] at hm
      obtain rfl : _ = m := by injection hm
      rfl
  · intro hlen
    rw [validateModel]
    split_ifs with h1 h2 h3
    · exact ⟨.idNotPositive, rfl⟩
    · exact ⟨.emptyList, rfl⟩
    · exact ⟨.emptyList, rfl⟩
    · cases hct : check_template_fields_exist r with
      | error e => exact ⟨e, rfl⟩
      | ok u =>
        have hstep : ∃ e2, set_default_yaml_field_map r = .error e2 := by
          cases hl : r.fields with
          | nil => rw [List.isEmpty_iff] at h2; exact absurd hl h2
          | cons f0 t =>
            cases ht : t with
            | cons f1 rest =>
              rw [hl, ht] at hlen
              simp at hlen
              omega
            | nil =>
              refine ⟨.defaultMapTooFewFields, ?_⟩
              rw [set_default_yaml_field_map, hnone, hl, ht, default_map_for]
              intro a b c h
              injection h with h1 h2
              exact absurd h2.symm (List.cons_ne_nil _ _)
        obtain ⟨e2, he2⟩ := hstep
        exact ⟨e2, by rw [he2]⟩

/-- Witness for C3 at concrete schemas: two fields synthesize the default
map; a single field fails validation. -/
theorem default_yaml_field_map_synthesis_witness :
    (set_default_yaml_field_map
        { id := 1, name := "M", fields := [⟨"Front"⟩, ⟨"Back"⟩],
          templates := [⟨"CardT", "ask", "ans"⟩], yaml_field_map := none, css := "" }
      = .ok (synthesizedMap [⟨"Front"⟩, ⟨"Back"⟩])) ∧
    (∃ e, validateModel
        { id := 1, name := "M", fields := [⟨"Only"⟩],
          templates := [⟨"CardT", "ask", "ans"⟩], yaml_field_map := none, css := "" }
      = .error e) := by
  constructor
  · exact ((default_yaml_field_map_synthesis _ rfl).1 (by decide)).1
  · exact (default_yaml_field_map_synthesis _ rfl).2 (by decide)

/-! ## C4 -/

theorem mem_missingIn {declared : List String} {fmt : String} {nm : String} :
    nm ∈ missingIn declared fmt ↔
      nm ∈ findFields fmt ∧ nm ∉ builtinNames ∧ nm ∉ declared := by
  unfold missingIn
  rw [List.mem_filter, mem_mydedup]
  constructor
  · rintro ⟨h1, h2⟩
    simp only [decide_eq_true_eq] at h2
    refine ⟨h1, fun hb => ?_, fun hd => ?_⟩
    · exact h2.1 (List.elem_eq_true_of_mem hb)
    · exact h2.2 (List.elem_eq_true_of_mem hd)
  · rintro ⟨h1, h2, h3⟩
    refine ⟨h1, ?_⟩
    simp only [decide_eq_true_eq]
    exact ⟨fun hb => h2 (List.mem_of_elem_eq_true hb),
           fun hd => h3 (List.mem_of_elem_eq_true hd)⟩

theorem missingIn_nil_of_good {declared : List String} {fmt : String}
    (h : ∀ nm ∈ findFields fmt, nm ∈ builtinNames ∨ nm ∈ declared) :
    missingIn declared fmt = [] := by
  rcases hm : missingIn declared fmt with _ | ⟨nm, rest⟩
  · rfl
  · exfalso
    have hmem : nm ∈ missingIn declared fmt := by rw [hm]; exact List.mem_cons_self _ _
    rw [mem_missingIn] at hmem
    rcases h nm hmem.1 with hb | hd
    · exact hmem.2.1 hb
    · exact hmem.2.2 hd

theorem checkTemplatesGo_ok (declared : List String) :
    ∀ ts : List AnkiTemplate,
      (∀ t ∈ ts, ∀ nm ∈ findFields t.qfmt ++ findFields t.afmt,
        nm ∈ builtinNames ∨ nm ∈ declared) →
      checkTemplatesGo declared ts = .ok () := by
  intro ts
  induction ts with
  | nil => intro _; rfl
  | cons t rest ih =>
    intro h
    have hq : missingIn declared t.qfmt = [] :=
      missingIn_nil_of_good (fun nm hnm =>
        h t (List.mem_cons_self _ _) nm (List.mem_append_left _ hnm))
    have ha : missingIn declared t.afmt = [] :=
      missingIn_nil_of_good (fun nm hnm =>
        h t (List.mem_cons_self _ _) nm (List.mem_append_right _ hnm))
    rw [checkTemplatesGo, hq, ha]
    simp only [List.isEmpty_nil, not_true, if_false]
    exact ih (fun t2 ht2 => h t2 (List.mem_cons_of_mem _ ht2))

theorem checkTemplatesGo_error (declared : List String) :
    ∀ ts : List AnkiTemplate,
      (∃ t ∈ ts, ∃ nm ∈ findFields t.qfmt ++ findFields t.afmt,
        nm ∉ builtinNames ∧ nm ∉ declared) →
      ∃ tname missing inQfmt,
        checkTemplatesGo declared ts
          = .error (.undefinedTemplateField tname missing inQfmt) ∧
        missing ≠ [] ∧
        ∃ t2 ∈ ts, t2.name = tname ∧
          ∀ nm ∈ missing,
            nm ∈ findFields (if inQfmt then t2.qfmt else t2.afmt) ∧
            nm ∉ builtinNames ∧ nm ∉ declared := by
  intro ts
  induction ts with
  | nil => rintro ⟨t, ht, _⟩; simp at ht
  | cons t rest ih =>
    intro h
    by_cases hq : (missingIn declared t.qfmt).isEmpty = true
    · by_cases ha : (missingIn declared t.afmt).isEmpty = true
      · have hrest : ∃ t3 ∈ rest, ∃ nm ∈ findFields t3.qfmt ++ findFields t3.afmt,
            nm ∉ builtinNames ∧ nm ∉ declared := by
          obtain ⟨t3, ht3, nm, hnm, hbad⟩ := h
          rcases List.mem_cons.mp ht3 with rfl | ht3r
          · exfalso
            rcases List.mem_append.mp hnm with hnq | hna
            · have : nm ∈ missingIn declared t3.qfmt :=
                mem_missingIn.mpr ⟨hnq, hbad.1, hbad.2⟩
              rw [List.isEmpty_iff.mp hq] at this
              simp at this
            · have : nm ∈ missingIn declared t3.afmt :=
                mem_missingIn.mpr ⟨hna, hbad.1, hbad.2⟩
              rw [List.isEmpty_iff.mp ha] at this
              simp at this
          · exact ⟨t3, ht3r, nm, hnm, hbad⟩
        obtain ⟨tname, missing, inQfmt, h1, h2, t2, ht2, h3, h4⟩ := ih hrest
        refine ⟨tname, missing, inQfmt, ?_, h2, t2, List.mem_cons_of_mem _ ht2, h3, h4⟩
        rw [checkTemplatesGo, List.isEmpty_iff.mp hq, List.isEmpty_iff.mp ha]
        simpa using h1
      · refine ⟨t.name, missingIn declared t.afmt, false, ?_, ?_, t,
          List.mem_cons_self _ _, rfl, ?_⟩
        · rw [checkTemplatesGo, List.isEmpty_iff.mp hq]
          simp only [List.isEmpty_nil, not_true, if_false]
          rw [if_pos]
          simpa using ha
        · intro hnil; rw [hnil] at ha; simp at ha
        · intro nm hnm
          have := mem_missingIn.mp hnm
          exact ⟨by simpa using this.1, this.2.1, this.2.2⟩
    · refine ⟨t.name, missingIn declared t.qfmt, true, ?_, ?_, t,
        List.mem_cons_self _ _, rfl, ?_⟩
      · rw [checkTemplatesGo, if_pos]
        simpa using hq
      · intro hnil; rw [hnil] at hq; simp at hq
      · intro nm hnm
        have := mem_missingIn.mp hnm
        exact ⟨by simpa using this.1, this.2.1, this.2.2⟩

/-- C4: if some template format string references a field name that is
neither declared nor one of the builtin names, `check_template_fields_exist`
fails with an error carrying the offending template name and a non-empty
list of missing names, each of which is genuinely referenced, non-builtin
and undeclared; if every referenced name is declared or builtin, the check
passes. -/
theorem template_field_reference_check (r : RawModel) :
    ((∃ t ∈ r.templates, ∃ nm ∈ findFields t.qfmt ++ findFields t.afmt,
        nm ∉ builtinNames ∧ nm ∉ r.fields.map (fun f => f.name)) →
      ∃ tname missing inQfmt,
        check_template_fields_exist r
          = .error (.undefinedTemplateField tname missing inQfmt) ∧
        missing ≠ [] ∧
        ∃ t2 ∈ r.templates, t2.name = tname ∧
          ∀ nm ∈ missing,
            nm ∈ findFields (if inQfmt then t2.qfmt else t2.afmt) ∧
            nm ∉ builtinNames ∧ nm ∉ r.fields.map (fun f => f.name)) ∧
    ((∀ t ∈ r.templates, ∀ nm ∈ findFields t.qfmt ++ findFields t.afmt,
        nm ∈ builtinNames ∨ nm ∈ r.fields.map (fun f => f.name)) →
      check_template_fields_exist r = .ok ()) := by
  constructor
  · exact checkTemplatesGo_error _ _
  · exact checkTemplatesGo_ok _ _

/-- Witness for C4 at concrete schemas: a template referencing the
undeclared field `Missing` makes the check fail; templates referencing only
declared fields and `FrontSide` pass. -/
theorem template_field_reference_check_witness :
    (∃ tname missing inQfmt,
      check_template_fields_exist
          { id := 1, name := "M", fields := [⟨"Front"⟩, ⟨"Back"⟩],
            templates := [⟨"CardT", "\x7b\x7bMissing\x7d\x7d", "x"⟩],
            yaml_field_map := none, css := "" }
        = .error (.undefinedTemplateField tname missing inQfmt) ∧
      missing ≠ [] ∧ True) ∧
    (check_template_fields_exist
        { id := 1, name := "M", fields := [⟨"Front"⟩, ⟨"Back"⟩],
          templates := [⟨"CardT", "\x7b\x7bFront\x7d\x7d",
            "\x7b\x7bFrontSide\x7d\x7d<hr>\x7b\x7bBack\x7d\x7d"⟩],
          yaml_field_map := none, css := "" }
      = .ok ()) := by
  constructor
  · obtain ⟨tname, missing, inQfmt, h1, h2, -⟩ :=
      (template_field_reference_check
        { id := 1, name := "M", fields := [⟨"Front"⟩, ⟨"Back"⟩],
          templates := [⟨"CardT", "\x7b\x7bMissing\x7d\x7d", "x"⟩],
          yaml_field_map := none, css := "" }).1
      (by decide)
    exact ⟨tname, missing, inQfmt, h1, h2, trivial⟩
  · exact (template_field_reference_check _).2 (by decide)

/-! ## C6 -/

theorem buildFields_none_of_missing (fsys : List String → Bool) (mdDir : List String)
    (kvs : List (String × Yaml)) :
    ∀ (items : List (String × String)) (acc : List (String × String)) (med : List String),
      (∃ p ∈ items, p.1 ≠ "tags" ∧ ygetOpt kvs p.1 = none) →
      buildFields fsys mdDir kvs items acc med = none := by
  intro items
  induction items with
  | nil =>
    rintro acc med ⟨p, hp, _⟩
    simp at hp
  | cons kf rest ih =>
    rintro acc med ⟨p, hp, hnt, hg⟩
    obtain ⟨k, f⟩ := kf
    rw [buildFields]
    rcases List.mem_cons.mp hp with rfl | hpr
    · rw [if_neg hnt, hg]
    · by_cases hk : k = "tags"
      · rw [if_pos hk]
        exact ih acc med ⟨p, hpr, hnt, hg⟩
      · rw [if_neg hk]
        cases hgk : ygetOpt kvs k with
        | none => rfl
        | some v => exact ih _ _ ⟨p, hpr, hnt, hg⟩

theorem processBlock_none_of_bad (fsys : List String → Bool) (mdDir : List String)
    (model : AnkiModelDefinition) (sf : Option String) (dd rel : String) (raw : Yaml)
    (hbad : (∀ kvs, raw ≠ .map kvs) ∨
      (∃ kvs items, raw = .map kvs ∧ model.yaml_field_map = some items ∧
        ∃ p ∈ items, p.1 ≠ "tags" ∧ ygetOpt kvs p.1 = none)) :
    processBlock fsys mdDir model sf dd rel raw = none := by
  rcases hbad with hnm | ⟨kvs, items, rfl, hmap, hmiss⟩
  · cases raw with
    | map kvs => exact absurd rfl (hnm kvs)
    | nullv => rfl
    | b _ => rfl
    | s _ => rfl
    | i _ => rfl
    | arr _ => rfl
  · rw [processBlock, hmap]
    simp only [buildFields_none_of_missing fsys mdDir kvs items [] [] hmiss]

/-- C6: a block whose body is not a mapping (a parse error or a non-mapping
value such as a sequence), or whose parsed record lacks (or nulls) some
non-`tags` key of the schema key-to-field map, contributes no extraction
record and no media, and the output over the remaining blocks is exactly as
if the block were absent — extraction is total, so no error reaches the
caller. -/
theorem bad_block_produces_nothing (fsys : List String → Bool)
    (root_dir filepath : List String) (model : AnkiModelDefinition)
    (pre post : List BlockParse) (b : BlockParse)
    (hbad : (∃ e, b = .err e) ∨
      (∃ raw, b = .ok raw ∧ ∀ kvs, raw ≠ .map kvs) ∨
      (∃ kvs items, b = .ok (.map kvs) ∧ model.yaml_field_map = some items ∧
        ∃ p ∈ items, p.1 ≠ "tags" ∧ ygetOpt kvs p.1 = none)) :
    find_anki_cards_in_file fsys root_dir filepath model (pre ++ b :: post)
      = find_anki_cards_in_file fsys root_dir filepath model (pre ++ post) := by
  rw [find_anki_cards_in_file, find_anki_cards_in_file]
  have hstep : ∀ acc : List CardDict × List String,
      (fun (acc : List CardDict × List String) (bl : BlockParse) =>
        match bl with
        | .err _ => acc
        | .ok raw =>
          match processBlock fsys filepath.dropLast model
              ((model.fields.find? (fun f => lowerStr f.name == "sourcefile")).map
                (fun f => f.name))
              (calculate_deck_name root_dir filepath)
              (String.intercalate "/" (filepath.drop root_dir.length)) raw with
          | none => acc
          | some (c, med) => (acc.1 ++ [c], acc.2 ++ med)) acc b = acc := by
    intro acc
    rcases hbad with ⟨e, rfl⟩ | ⟨raw, rfl, hnm⟩ | ⟨kvs, items, rfl, hmap, hmiss⟩
    · rfl
    · simp only
      rw [processBlock_none_of_bad _ _ _ _ _ _ _ (Or.inl hnm)]
    · simp only
      rw [processBlock_none_of_bad _ _ _ _ _ _ _ (Or.inr ⟨kvs, items, rfl, hmap, hmiss⟩)]
  simp only [List.foldl_append, List.foldl_cons, hstep]

/-- Witness for C6: a sequence-bodied block between two mapping blocks is
dropped without affecting the neighbours (the trailing block, itself missing
the mapped `a` key, is likewise simply skipped rather than failing). -/
theorem bad_block_produces_nothing_witness :
    find_anki_cards_in_file (fun _ => false) ["notes"] ["notes", "f.md"]
        { id := 1, name := "M", fields := [⟨"Front"⟩, ⟨"Back"⟩],
          templates := [⟨"CardT", "ask", "ans"⟩],
          yaml_field_map := some [("q", "Front"), ("a", "Back")], css := "" }
        ([.ok (.map [("q", .s "Q1"), ("a", .s "A1")])] ++
          .ok (.arr [.s "not", .s "a", .s "mapping"]) ::
            [.ok (.map [("q", .s "Q2")])])
      = find_anki_cards_in_file (fun _ => false) ["notes"] ["notes", "f.md"]
        { id := 1, name := "M", fields := [⟨"Front"⟩, ⟨"Back"⟩],
          templates := [⟨"CardT", "ask", "ans"⟩],
          yaml_field_map := some [("q", "Front"), ("a", "Back")], css := "" }
        ([.ok (.map [("q", .s "Q1"), ("a", .s "A1")])] ++
          [.ok (.map [("q", .s "Q2")])]) := by
  exact bad_block_produces_nothing (fun _ => false) ["notes"] ["notes", "f.md"] _ _ _ _
    (Or.inr (Or.inl ⟨.arr [.s "not", .s "a", .s "mapping"], rfl,
      fun kvs h => Yaml.noConfusion h⟩))

/-! ## C9 -/

theorem alookup_filter_tags (m : List (String × String)) (key : String)
    (hk : key ≠ "tags") :
    alookup (m.filter (fun kv => kv.1 ≠ "tags")) key = alookup m key := by
  induction m with
  | nil => rfl
  | cons kv rest ih =>
    obtain ⟨k, v⟩ := kv
    by_cases hkt : k = "tags"
    · subst hkt
      rw [List.filter_cons_of_neg (by simp), alookup, if_neg (fun h => hk h.symm)]
      exact ih
    · rw [List.filter_cons_of_pos (by simpa using hkt), alookup, alookup]
      by_cases hke : k = key
      · rw [if_pos hke, if_pos hke]
      · rw [if_neg hke, if_neg hke]
        exact ih

theorem buildFields_filter_tags (fsys : List String → Bool) (mdDir : List String)
    (kvs : List (String × Yaml)) :
    ∀ (items : List (String × String)) (acc : List (String × String)) (med : List String),
      buildFields fsys mdDir kvs (items.filter (fun kv => kv.1 ≠ "tags")) acc med
        = buildFields fsys mdDir kvs items acc med := by
  intro items
  induction items with
  | nil => intro acc med; rfl
  | cons kf rest ih =>
    intro acc med
    obtain ⟨k, f⟩ := kf
    by_cases hkt : k = "tags"
    · subst hkt
      rw [List.filter_cons_of_neg (by simp), ih, buildFields, if_pos rfl]
    · rw [List.filter_cons_of_pos (by simpa using hkt), buildFields, buildFields,
        if_neg hkt, if_neg hkt]
      cases ygetOpt kvs k with
      | none => rfl
      | some v => exact ih _ _

theorem processBlock_filter_tags (fsys : List String → Bool) (mdDir : List String)
    (model : AnkiModelDefinition) (m : List (String × String))
    (hm : model.yaml_field_map = some m) (sf : Option String) (dd rel : String)
    (raw : Yaml) :
    processBlock fsys mdDir
        { model with yaml_field_map := some (m.filter (fun kv => kv.1 ≠ "tags")) }
        sf dd rel raw
      = processBlock fsys mdDir model sf dd rel raw := by
  cases raw with
  | map kvs =>
    rw [processBlock, processBlock, hm]
    simp only [buildFields_filter_tags fsys mdDir kvs m,
      alookup_filter_tags m "q" (by decide), alookup_filter_tags m "a" (by decide)]
  | nullv => rfl
  | b _ => rfl
  | s _ => rfl
  | i _ => rfl
  | arr _ => rfl

/-- C9: the `tags` entries of the key-to-field map are inert for field
population — removing every `tags` key from the map changes neither the
extracted cards (fields, deck, identity basis) nor the media — and the
block tags reach the card only as the separate `tags` list
(`raw.get("tags", [])`), never as field content. -/
theorem tags_mapping_inert (fsys : List String → Bool) (root_dir filepath : List String)
    (model : AnkiModelDefinition) (m : List (String × String))
    (blocks : List BlockParse) (hm : model.yaml_field_map = some m) :
    (find_anki_cards_in_file fsys root_dir filepath
        { model with yaml_field_map := some (m.filter (fun kv => kv.1 ≠ "tags")) }
        blocks
      = find_anki_cards_in_file fsys root_dir filepath model blocks) ∧
    (∀ (mdDir : List String) (sf : Option String) (dd rel : String)
        (kvs : List (String × Yaml)) (c : CardDict) (med : List String),
      processBlock fsys mdDir model sf dd rel (.map kvs) = some (c, med) →
      c.tags = ygetD kvs "tags" (.arr [])) := by
  constructor
  · rw [find_anki_cards_in_file, find_anki_cards_in_file]
    simp only [processBlock_filter_tags fsys filepath.dropLast model m hm]
  · intro mdDir sf dd rel kvs c med hpb
    rw [processBlock] at hpb
    simp only [hm] at hpb
    cases hb : buildFields fsys mdDir kvs m [] [] with
    | none =>
      simp only [hb] at hpb
      exact Option.noConfusion hpb
    | some p =>
      obtain ⟨cf0, cm⟩ := p
      simp only [hb] at hpb
      replace hpb := Option.some.inj hpb
      exact (congrArg (fun q => q.1.tags) hpb).symm

/-- Witness for C9: on a block carrying `tags`, with a schema mapping
`tags` to a field, dropping the `tags` mapping leaves the output unchanged,
and the card carries the block tags as its separate list. -/
theorem tags_mapping_inert_witness :
    (find_anki_cards_in_file (fun _ => false) ["notes"] ["notes", "f.md"]
        { id := 1, name := "M", fields := [⟨"Front"⟩, ⟨"Back"⟩, ⟨"Tags"⟩],
          templates := [⟨"CardT", "ask", "ans"⟩],
          yaml_field_map := some (([("q", "Front"), ("a", "Back"), ("tags", "Tags")] :
            List (String × String)).filter (fun kv => kv.1 ≠ "tags")), css := "" }
        [.ok (.map [("q", .s "Q1"), ("a", .s "A1"), ("tags", .arr [.s "t1"])])]
      = find_anki_cards_in_file (fun _ => false) ["notes"] ["notes", "f.md"]
        { id := 1, name := "M", fields := [⟨"Front"⟩, ⟨"Back"⟩, ⟨"Tags"⟩],
          templates := [⟨"CardT", "ask", "ans"⟩],
          yaml_field_map := some [("q", "Front"), ("a", "Back"), ("tags", "Tags")],
          css := "" }
        [.ok (.map [("q", .s "Q1"), ("a", .s "A1"), ("tags", .arr [.s "t1"])])]) ∧
    (∀ c med,
      processBlock (fun _ => false) ["notes"]
          { id := 1, name := "M", fields := [⟨"Front"⟩, ⟨"Back"⟩, ⟨"Tags"⟩],
            templates := [⟨"CardT", "ask", "ans"⟩],
            yaml_field_map := some [("q", "Front"), ("a", "Back"), ("tags", "Tags")],
            css := "" }
          (some "SourceFile") "notes" "f.md"
          (.map [("q", .s "Q1"), ("a", .s "A1"), ("tags", .arr [.s "t1"])])
        = some (c, med) →
      c.tags = .arr [.s "t1"]) := by
  have h := tags_mapping_inert (fun _ => false) ["notes"] ["notes", "f.md"]
    { id := 1, name := "M", fields := [⟨"Front"⟩, ⟨"Back"⟩, ⟨"Tags"⟩],
      templates := [⟨"CardT", "ask", "ans"⟩],
      yaml_field_map := some [("q", "Front"), ("a", "Back"), ("tags", "Tags")],
      css := "" }
    [("q", "Front"), ("a", "Back"), ("tags", "Tags")]
    [.ok (.map [("q", .s "Q1"), ("a", .s "A1"), ("tags", .arr [.s "t1"])])] rfl
  refine ⟨h.1, ?_⟩
  intro c med hpb
  exact h.2 ["notes"] (some "SourceFile") "notes" "f.md" _ c med hpb

/-! ## C10 -/

theorem set_default_ok_values (r : RawModel) (m : List (String × String))
    (h : set_default_yaml_field_map r = .ok m) :
    ∀ kv ∈ m, kv.2 ∈ r.fields.map (fun f => f.name) := by
  rw [set_default_yaml_field_map] at h
  cases hdm : (match r.yaml_field_map with
               | none => default_map_for r.fields
               | some m2 => .ok m2) with
  | error e => rw [hdm] at h; exact absurd h (by simp)
  | ok m0 =>
    rw [hdm] at h
    simp only at h
    by_cases hne : ((m0.map (fun kv => kv.2)).filter
        (fun v => ¬ (r.fields.map (fun f => f.name)).contains v)) = []
    · rw [if_neg (fun hc => hc (by rw [hne]; rfl))] at h
      obtain rfl : m0 = m := Except.ok.inj h
      intro kv hkv
      by_contra hnot
      have hvmem : kv.2 ∈ (m0.map (fun kv => kv.2)).filter
          (fun v => ¬ (r.fields.map (fun f => f.name)).contains v) := by
        rw [List.mem_filter]
        refine ⟨List.mem_map_of_mem _ hkv, ?_⟩
        simp only [decide_eq_true_eq]
        intro hc
        exact hnot (List.mem_of_elem_eq_true hc)
      rw [hne] at hvmem
      simp at hvmem
    · rw [if_pos (fun he => hne (List.isEmpty_iff.mp he))] at h
      exact absurd h (by simp)

theorem validateModel_ok_inv (r : RawModel) (model : AnkiModelDefinition)
    (h : validateModel r = .ok model) :
    ∃ m, model.yaml_field_map = some m ∧ model.fields = r.fields ∧
      ∀ kv ∈ m, kv.2 ∈ model.fields.map (fun f => f.name) := by
  rw [validateModel] at h
  split_ifs at h
  revert h
  cases hct : check_template_fields_exist r with
  | error e => intro h; exact absurd h (by simp)
  | ok u =>
    cases hsd : set_default_yaml_field_map r with
    | error e => intro h; exact absurd h (by simp)
    | ok m =>
      intro h
      replace h := Except.ok.inj h
      have hmap : model.yaml_field_map = some m := by rw [← h]
      have hfields : model.fields = r.fields := by rw [← h]
      refine ⟨m, hmap, hfields, ?_⟩
      rw [hfields]
      exact set_default_ok_values r m hsd

theorem buildFields_keys (fsys : List String → Bool) (mdDir : List String)
    (kvs : List (String × Yaml)) :
    ∀ (items : List (String × String)) (acc : List (String × String))
      (med : List String) (cf : List (String × String)) (cm : List String),
      buildFields fsys mdDir kvs items acc med = some (cf, cm) →
      ∀ k, (∃ v, (k, v) ∈ cf) → (∃ v, (k, v) ∈ acc) ∨ ∃ kk, (kk, k) ∈ items := by
  intro items
  induction items with
  | nil =>
    intro acc med cf cm h k hk
    rw [buildFields] at h
    replace h := Option.some.inj h
    obtain rfl : acc = cf := congrArg Prod.fst h
    exact Or.inl hk
  | cons kf rest ih =>
    intro acc med cf cm h k hk
    obtain ⟨yk, fn⟩ := kf
    rw [buildFields] at h
    by_cases hkt : yk = "tags"
    · rw [if_pos hkt] at h
      rcases ih acc med cf cm h k hk with h1 | ⟨kk, h1⟩
      · exact Or.inl h1
      · exact Or.inr ⟨kk, List.mem_cons_of_mem _ h1⟩
    · rw [if_neg hkt] at h
      cases hg : ygetOpt kvs yk with
      | none => rw [hg] at h; exact absurd h (by simp)
      | some v =>
        rw [hg] at h
        rcases ih _ _ cf cm h k hk with h1 | ⟨kk, h1⟩
        · rcases dinsert_keys acc fn _ k h1 with rfl | h2
          · exact Or.inr ⟨yk, List.mem_cons_self _ _⟩
          · exact Or.inl h2
        · exact Or.inr ⟨kk, List.mem_cons_of_mem _ h1⟩

theorem processBlock_keys (fsys : List String → Bool) (mdDir : List String)
    (model : AnkiModelDefinition) (items : List (String × String))
    (sf : Option String) (dd rel : String) (raw : Yaml) (c : CardDict)
    (med : List String) (hm : model.yaml_field_map = some items)
    (h : processBlock fsys mdDir model sf dd rel raw = some (c, med)) :
    ∀ k, (∃ v, (k, v) ∈ c.fields) → (∃ kk, (kk, k) ∈ items) ∨ sf = some k := by
  cases raw with
  | map kvs =>
    rw [processBlock] at h
    simp only [hm] at h
    cases hb : buildFields fsys mdDir kvs items [] [] with
    | none => simp only [hb] at h; exact Option.noConfusion h
    | some p =>
      obtain ⟨cf0, cm⟩ := p
      simp only [hb] at h
      replace h := Option.some.inj h
      intro k hk
      cases sf with
      | none =>
        have hcf : c.fields = cf0 := (congrArg (fun q => q.1.fields) h).symm
        rw [hcf] at hk
        rcases buildFields_keys fsys mdDir kvs items [] [] cf0 cm hb k hk with h1 | h1
        · obtain ⟨v, hv⟩ := h1; simp at hv
        · exact Or.inl h1
      | some s =>
        have hcf : c.fields = dinsert cf0 s rel := (congrArg (fun q => q.1.fields) h).symm
        rw [hcf] at hk
        rcases dinsert_keys cf0 s rel k hk with rfl | h2
        · exact Or.inr rfl
        · rcases buildFields_keys fsys mdDir kvs items [] [] cf0 cm hb k h2 with h1 | h1
          · obtain ⟨v2, hv2⟩ := h1; simp at hv2
          · exact Or.inl h1
  | nullv => exact Option.noConfusion h
  | b _ => exact Option.noConfusion h
  | s _ => exact Option.noConfusion h
  | i _ => exact Option.noConfusion h
  | arr _ => exact Option.noConfusion h

theorem find_cards_mem_inv (fsys : List String → Bool)
    (root_dir filepath : List String) (model : AnkiModelDefinition)
    (blocks : List BlockParse) (c : CardDict)
    (hc : c ∈ (find_anki_cards_in_file fsys root_dir filepath model blocks).1) :
    ∃ raw med,
      processBlock fsys filepath.dropLast model
        ((model.fields.find? (fun f => lowerStr f.name == "sourcefile")).map
          (fun f => f.name))
        (calculate_deck_name root_dir filepath)
        (String.intercalate "/" (filepath.drop root_dir.length)) raw
      = some (c, med) := by
  rw [find_anki_cards_in_file] at hc
  simp only at hc
  suffices hgen : ∀ (bs : List BlockParse) (acc : List CardDict × List String),
      c ∈ (bs.foldl (fun acc b =>
        match b with
        | .err _ => acc
        | .ok raw =>
          match processBlock fsys filepath.dropLast model
              ((model.fields.find? (fun f => lowerStr f.name == "sourcefile")).map
                (fun f => f.name))
              (calculate_deck_name root_dir filepath)
              (String.intercalate "/" (filepath.drop root_dir.length)) raw with
          | none => acc
          | some (c2, med) => (acc.1 ++ [c2], acc.2 ++ med)) acc).1 →
      c ∈ acc.1 ∨ ∃ raw med,
        processBlock fsys filepath.dropLast model
          ((model.fields.find? (fun f => lowerStr f.name == "sourcefile")).map
            (fun f => f.name))
          (calculate_deck_name root_dir filepath)
          (String.intercalate "/" (filepath.drop root_dir.length)) raw
        = some (c, med) by
    rcases hgen blocks ([], []) hc with h1 | h1
    · simp at h1
    · exact h1
  intro bs
  induction bs with
  | nil => intro acc h; exact Or.inl h
  | cons b rest ih =>
    intro acc h
    rw [List.foldl_cons] at h
    rcases ih _ h with h1 | h1
    · cases b with
      | err e => exact Or.inl h1
      | ok raw =>
        simp only at h1
        cases hp : processBlock fsys filepath.dropLast model
            ((model.fields.find? (fun f => lowerStr f.name == "sourcefile")).map
              (fun f => f.name))
            (calculate_deck_name root_dir filepath)
            (String.intercalate "/" (filepath.drop root_dir.length)) raw with
        | none => rw [hp] at h1; exact Or.inl h1
        | some p =>
          obtain ⟨c2, med⟩ := p
          rw [hp] at h1
          rcases List.mem_append.mp h1 with h2 | h2
          · exact Or.inl h2
          · obtain rfl : c = c2 := by simpa using h2
            exact Or.inr ⟨raw, med, hp⟩
    · exact Or.inr h1

/-- C10: for a schema accepted by validation, every key of an extracted
record's field mapping is a declared field name — the mapped field values
are checked against the declared fields at validation time, and the only
key added outside the map is the declared field case-insensitively named
`SourceFile` — so the package builder's reordering by declared field order
never drops extracted content. -/
theorem extracted_field_keys_declared (r : RawModel) (model : AnkiModelDefinition)
    (fsys : List String → Bool) (root_dir filepath : List String)
    (blocks : List BlockParse) (c : CardDict)
    (hval : validateModel r = .ok model)
    (hc : c ∈ (find_anki_cards_in_file fsys root_dir filepath model blocks).1) :
    ∀ k, (∃ v, (k, v) ∈ c.fields) → k ∈ model.fields.map (fun f => f.name) := by
  obtain ⟨m, hm, hfields, hvals⟩ := validateModel_ok_inv r model hval
  obtain ⟨raw, med, hp⟩ := find_cards_mem_inv fsys root_dir filepath model blocks c hc
  intro k hk
  rcases processBlock_keys fsys filepath.dropLast model m _ _ _ raw c med hm hp k hk
    with ⟨kk, hkk⟩ | hsf
  · exact hvals (kk, k) hkk
  · cases hfind : model.fields.find? (fun f => lowerStr f.name == "sourcefile") with
    | none => rw [hfind] at hsf; simp at hsf
    | some f =>
      rw [hfind] at hsf
      obtain rfl : f.name = k := by simpa using hsf
      exact List.mem_map_of_mem _ (List.mem_of_find?_eq_some hfind)

/-- Witness for C10: a validated schema with `Front`, `Back` and
`SourceFile` fields; the key `SourceFile` carried by the one extracted
record is a declared field name. -/
theorem extracted_field_keys_declared_witness :
    ("SourceFile" : String) ∈
      (AnkiModelDefinition.fields
        ⟨1, "M", [⟨"Front"⟩, ⟨"Back"⟩, ⟨"SourceFile"⟩], [⟨"CardT", "ask", "ans"⟩],
         some [("q", "Front"), ("a", "Back")], ""⟩).map (fun f => f.name) := by
  exact extracted_field_keys_declared
    { id := 1, name := "M", fields := [⟨"Front"⟩, ⟨"Back"⟩, ⟨"SourceFile"⟩],
      templates := [⟨"CardT", "ask", "ans"⟩],
      yaml_field_map := some [("q", "Front"), ("a", "Back")], css := "" }
    { id := 1, name := "M", fields := [⟨"Front"⟩, ⟨"Back"⟩, ⟨"SourceFile"⟩],
      templates := [⟨"CardT", "ask", "ans"⟩],
      yaml_field_map := some [("q", "Front"), ("a", "Back")], css := "" }
    (fun _ => false) ["notes"] ["notes", "f.md"]
    [.ok (.map [("q", .s "Q1"), ("a", .s "A1")])]
    ⟨[("Front", "Q1"), ("Back", "A1"), ("SourceFile", "f.md")],
      Yaml.arr [], Yaml.s "notes", "Q1|A1|notes|f.md"⟩
    rfl (by decide) "SourceFile" ⟨"f.md", by decide⟩

/-! ## C8 -/

theorem addNote_preserves (decks : List GDeck) (dn : Yaml) (n : GNote) :
    ∀ d ∈ decks, ∃ d2 ∈ addNote decks dn n, d2.name = d.name ∧
      ∀ m ∈ d.notes, m ∈ d2.notes := by
  induction decks with
  | nil => intro d hd; simp at hd
  | cons d0 rest ih =>
    intro d hd
    rw [addNote]
    by_cases h0 : d0.name = dn
    · rw [if_pos h0]
      rcases List.mem_cons.mp hd with rfl | hdr
      · exact ⟨{ d with notes := d.notes ++ [n] }, List.mem_cons_self _ _, rfl,
          fun m hm => List.mem_append_left _ hm⟩
      · exact ⟨d, List.mem_cons_of_mem _ hdr, rfl, fun m hm => hm⟩
    · rw [if_neg h0]
      rcases List.mem_cons.mp hd with rfl | hdr
      · exact ⟨d, List.mem_cons_self _ _, rfl, fun m hm => hm⟩
      · obtain ⟨d2, hd2, hn, hsub⟩ := ih d hdr
        exact ⟨d2, List.mem_cons_of_mem _ hd2, hn, hsub⟩

theorem addNote_adds (decks : List GDeck) (dn : Yaml) (n : GNote) :
    (∃ d ∈ decks, d.name = dn) →
    ∃ d2 ∈ addNote decks dn n, d2.name = dn ∧ n ∈ d2.notes := by
  induction decks with
  | nil => rintro ⟨d, hd, _⟩; simp at hd
  | cons d0 rest ih =>
    rintro ⟨d, hd, hdn⟩
    rw [addNote]
    by_cases h0 : d0.name = dn
    · rw [if_pos h0]
      refine ⟨{ d0 with notes := d0.notes ++ [n] }, List.mem_cons_self _ _, h0, ?_⟩
      exact List.mem_append_right _ (List.mem_cons_self _ _)
    · rw [if_neg h0]
      rcases List.mem_cons.mp hd with rfl | hdr
      · exact absurd hdn h0
      · obtain ⟨d2, hd2, hn, hmem⟩ := ih ⟨d, hdr, hdn⟩
        exact ⟨d2, List.mem_cons_of_mem _ hd2, hn, hmem⟩

theorem packStep_preserves (guidFor : String → String) (hashY : Yaml → Int)
    (base : Int) (mfn : List String) (decks : List GDeck) (cd : CardDict) :
    ∀ d ∈ decks, ∃ d2 ∈ packStep guidFor hashY base mfn decks cd,
      d2.name = d.name ∧ ∀ m ∈ d.notes, m ∈ d2.notes := by
  intro d hd
  rw [packStep]
  by_cases hany : decks.any (fun d => d.name == cd.deck) = true
  · rw [if_pos hany]
    exact addNote_preserves _ _ _ d hd
  · rw [if_neg hany]
    exact addNote_preserves _ _ _ d (List.mem_append_left _ hd)

theorem packStep_adds (guidFor : String → String) (hashY : Yaml → Int)
    (base : Int) (mfn : List String) (decks : List GDeck) (cd : CardDict) :
    ∃ d2 ∈ packStep guidFor hashY base mfn decks cd, d2.name = cd.deck ∧
      (⟨guidFor cd.guid_basis,
        mfn.map (fun fn => (alookup cd.fields fn).getD ""), cd.tags⟩ : GNote)
      ∈ d2.notes := by
  rw [packStep]
  by_cases hany : decks.any (fun d => d.name == cd.deck) = true
  · rw [if_pos hany]
    obtain ⟨d, hd, hdn⟩ := List.any_eq_true.mp hany
    exact addNote_adds _ _ _ ⟨d, hd, (yamlBeq_iff _ _).mp hdn⟩
  · rw [if_neg hany]
    refine addNote_adds _ _ _ ⟨⟨base + (hashY cd.deck).natAbs % 100000000, cd.deck, []⟩,
      List.mem_append_right _ (List.mem_cons_self _ _), rfl⟩

theorem foldl_packStep_preserves (guidFor : String → String) (hashY : Yaml → Int)
    (base : Int) (mfn : List String) :
    ∀ (cards : List CardDict) (decks : List GDeck) (d : GDeck), d ∈ decks →
      ∃ d2 ∈ cards.foldl (packStep guidFor hashY base mfn) decks,
        d2.name = d.name ∧ ∀ m ∈ d.notes, m ∈ d2.notes := by
  intro cards
  induction cards with
  | nil => intro decks d hd; exact ⟨d, hd, rfl, fun m hm => hm⟩
  | cons c0 rest ih =>
    intro decks d hd
    rw [List.foldl_cons]
    obtain ⟨d2, hd2, hn2, hs2⟩ := packStep_preserves guidFor hashY base mfn decks c0 d hd
    obtain ⟨d3, hd3, hn3, hs3⟩ := ih _ d2 hd2
    exact ⟨d3, hd3, hn3.trans hn2, fun m hm => hs3 m (hs2 m hm)⟩

theorem foldl_packStep_inv (guidFor : String → String) (hashY : Yaml → Int)
    (base : Int) (mfn : List String) :
    ∀ (cards : List CardDict) (decks : List GDeck) (c : CardDict), c ∈ cards →
      ∃ d ∈ cards.foldl (packStep guidFor hashY base mfn) decks,
        d.name = c.deck ∧
        ∃ n ∈ d.notes, n.guid = guidFor c.guid_basis ∧
          n.fields = mfn.map (fun fn => (alookup c.fields fn).getD "") := by
  intro cards
  induction cards with
  | nil => intro decks c hc; simp at hc
  | cons c0 rest ih =>
    intro decks c hc
    rw [List.foldl_cons]
    rcases List.mem_cons.mp hc with rfl | hcr
    · obtain ⟨d2, hd2, hn2, hmem2⟩ := packStep_adds guidFor hashY base mfn decks c
      obtain ⟨d3, hd3, hn3, hs3⟩ :=
        foldl_packStep_preserves guidFor hashY base mfn rest _ d2 hd2
      exact ⟨d3, hd3, hn3.trans hn2, _, hs3 _ hmem2, rfl, rfl⟩
    · exact ih _ c hcr

/-- C8: whenever `generate_anki_package` produces a package, every input
extraction record yields a note, in the deck group named by the record's
deck, whose field values are ordered exactly by the declared model fields,
each taken from the record's field mapping with the empty string for a
declared field the record lacks. -/
theorem package_field_order (guidFor : String → String) (hashS : String → Int)
    (hashY : Yaml → Int) (cards : List CardDict) (media : List String)
    (model_name : String) (model_field_names : List String) (P : GPackage)
    (hP : generate_anki_package guidFor hashS hashY cards media model_name
        model_field_names = some P) :
    ∀ c ∈ cards, ∃ d ∈ P.decks, d.name = c.deck ∧
      ∃ n ∈ d.notes, n.guid = guidFor c.guid_basis ∧
        n.fields = model_field_names.map (fun fn => (alookup c.fields fn).getD "") := by
  intro c hc
  rw [generate_anki_package] at hP
  by_cases hde : (cards.foldl
      (packStep guidFor hashY (2000000000 + (hashS model_name).natAbs % 500000000)
        model_field_names) []).isEmpty = true
  · rw [if_pos hde] at hP
    exact Option.noConfusion hP
  · rw [if_neg hde] at hP
    replace hP := Option.some.inj hP
    have hdecks : P.decks = cards.foldl
        (packStep guidFor hashY (2000000000 + (hashS model_name).natAbs % 500000000)
          model_field_names) [] := (congrArg GPackage.decks hP).symm
    rw [hdecks]
    exact foldl_packStep_inv guidFor hashY _ model_field_names cards [] c hc

/-- Witness for C8: one record with a `Back` value missing from its field
mapping; the produced note lists the declared fields in order with the
empty string for the missing one. -/
theorem package_field_order_witness :
    ∃ d ∈ ({ decks := [⟨2000000000, Yaml.s "notes",
        [⟨"G", ["Q1", ""], Yaml.arr []⟩]⟩], media_files := [] } : GPackage).decks,
      d.name = Yaml.s "notes" ∧
      ∃ n ∈ d.notes, n.guid = "G" ∧
        n.fields = ["Front", "Back"].map
          (fun fn => (alookup [("Front", "Q1")] fn).getD "") := by
  have h := package_field_order (fun _ => "G") (fun _ => 0) (fun _ => 0)
    [⟨[("Front", "Q1")], Yaml.arr [], Yaml.s "notes", "Q1||notes|f.md"⟩] []
    "M" ["Front", "Back"]
    { decks := [⟨2000000000, Yaml.s "notes", [⟨"G", ["Q1", ""], Yaml.arr []⟩]⟩],
      media_files := [] }
    (by decide)
    ⟨[("Front", "Q1")], Yaml.arr [], Yaml.s "notes", "Q1||notes|f.md"⟩
    (List.mem_cons_self _ _)
  exact h

/-! ## C1 -/

theorem alookup_eq_none {α : Type} (l : List (String × α)) (k : String)
    (h : ∀ v, (k, v) ∉ l) : alookup l k = none := by
  induction l with
  | nil => rfl
  | cons p rest ih =>
    obtain ⟨k0, v0⟩ := p
    rw [alookup]
    by_cases hk : k0 = k
    · subst hk
      exact absurd (List.mem_cons_self _ _) (h v0)
    · rw [if_neg hk]
      exact ih (fun v hv => h v (List.mem_cons_of_mem _ hv))

theorem buildFields_lookup_untouched (fsys : List String → Bool) (mdDir : List String)
    (kvs : List (String × Yaml)) (fq : String) :
    ∀ (items : List (String × String)) (acc : List (String × String))
      (med : List String) (cf : List (String × String)) (cm : List String),
      buildFields fsys mdDir kvs items acc med = some (cf, cm) →
      (∀ kv ∈ items, kv.2 ≠ fq) →
      alookup cf fq = alookup acc fq := by
  intro items
  induction items with
  | nil =>
    intro acc med cf cm h _
    rw [buildFields] at h
    replace h := Option.some.inj h
    obtain rfl : acc = cf := congrArg Prod.fst h
    rfl
  | cons kf rest ih =>
    intro acc med cf cm h hne
    obtain ⟨yk, fn⟩ := kf
    rw [buildFields] at h
    by_cases hkt : yk = "tags"
    · rw [if_pos hkt] at h
      exact ih _ _ _ _ h (fun kv hkv => hne kv (List.mem_cons_of_mem _ hkv))
    · rw [if_neg hkt] at h
      cases hg : ygetOpt kvs yk with
      | none => rw [hg] at h; exact Option.noConfusion h
      | some v =>
        rw [hg] at h
        have hfn : fn ≠ fq := hne (yk, fn) (List.mem_cons_self _ _)
        rw [ih _ _ _ _ h (fun kv hkv => hne kv (List.mem_cons_of_mem _ hkv))]
        exact alookup_dinsert_other acc fn _ fq hfn

theorem buildFields_lookup_key (fsys : List String → Bool) (mdDir : List String)
    (kvs : List (String × Yaml)) (yk0 fq : String) (hk0 : yk0 ≠ "tags") :
    ∀ (items : List (String × String)) (acc : List (String × String))
      (med : List String) (cf : List (String × String)) (cm : List String),
      buildFields fsys mdDir kvs items acc med = some (cf, cm) →
      (yk0, fq) ∈ items →
      (∀ kv ∈ items, kv.2 = fq → kv.1 = yk0) →
      (items.map Prod.fst).Nodup →
      ∃ v, ygetOpt kvs yk0 = some v ∧
        alookup cf fq = some (process_field_for_images fsys mdDir (pyStr v)).1 := by
  intro items
  induction items with
  | nil => intro acc med cf cm _ hmem; simp at hmem
  | cons kf rest ih =>
    intro acc med cf cm h hmem huniq hnodup
    obtain ⟨yk, fn⟩ := kf
    rcases List.mem_cons.mp hmem with heq | hrest
    · obtain ⟨rfl, rfl⟩ : yk0 = yk ∧ fq = fn := by simpa using heq
      rw [buildFields, if_neg hk0] at h
      cases hg : ygetOpt kvs yk0 with
      | none => rw [hg] at h; exact Option.noConfusion h
      | some v =>
        rw [hg] at h
        refine ⟨v, rfl, ?_⟩
        have hrest_ne : ∀ kv ∈ rest, kv.2 ≠ fq := by
          rintro ⟨k2, v2⟩ hkv rfl
          have hk2 : k2 = yk0 := huniq (k2, v2) (List.mem_cons_of_mem _ hkv) rfl
          subst hk2
          rw [List.map_cons, List.nodup_cons] at hnodup
          exact hnodup.1 (List.mem_map_of_mem Prod.fst hkv)
        rw [buildFields_lookup_untouched fsys mdDir kvs fq rest _ _ cf cm h hrest_ne]
        exact alookup_dinsert_self acc fq _
    · rw [buildFields] at h
      rw [List.map_cons, List.nodup_cons] at hnodup
      by_cases hkt : yk = "tags"
      · rw [if_pos hkt] at h
        exact ih _ _ _ _ h hrest
          (fun kv hkv hv => huniq kv (List.mem_cons_of_mem _ hkv) hv) hnodup.2
      · rw [if_neg hkt] at h
        cases hg : ygetOpt kvs yk with
        | none => rw [hg] at h; exact Option.noConfusion h
        | some v =>
          rw [hg] at h
          exact ih _ _ _ _ h hrest
            (fun kv hkv hv => huniq kv (List.mem_cons_of_mem _ hkv) hv) hnodup.2

/-- C1 (corrected): for a card extracted from a mapping block, the identity
basis concatenates, separated by `|`: the content stored under the field
mapped from `q` — rendered as the string `None` (a null lookup in an
f-string) when `q` is unmapped, not as the empty string — then likewise for
`a`, then the textual rendering of the resolved deck value (the block's
explicit `deck` override if present, else the computed default), then the
relative file path.  When the `q`-mapped field is set only by the `q` key
and is not the source-file field, the stored content is exactly the
image-processed question value. -/
theorem guid_basis_composition (fsys : List String → Bool) (mdDir : List String)
    (model : AnkiModelDefinition) (items : List (String × String))
    (sf : Option String) (dd rel : String) (kvs : List (String × Yaml))
    (c : CardDict) (med : List String)
    (hm : model.yaml_field_map = some items)
    (hne : ∀ kv ∈ items, kv.2 ≠ "")
    (hsf : sf ≠ some "")
    (h : processBlock fsys mdDir model sf dd rel (.map kvs) = some (c, med)) :
    (c.guid_basis =
      (match alookup items "q" with
       | some fq => pyOptStr (alookup c.fields fq)
       | none => "None") ++ "|" ++
      (match alookup items "a" with
       | some fa => pyOptStr (alookup c.fields fa)
       | none => "None") ++ "|" ++
      pyStr c.deck ++ "|" ++ rel) ∧
    c.deck = ygetD kvs "deck" (.s dd) ∧
    (∀ fq, alookup items "q" = some fq →
      (∀ kv ∈ items, kv.2 = fq → kv.1 = "q") →
      sf ≠ some fq →
      (items.map Prod.fst).Nodup →
      ∃ v, ygetOpt kvs "q" = some v ∧
        alookup c.fields fq
          = some (process_field_for_images fsys mdDir (pyStr v)).1) := by
  rw [processBlock] at h
  simp only [hm] at h
  cases hb : buildFields fsys mdDir kvs items [] [] with
  | none => simp only [hb] at h; exact Option.noConfusion h
  | some p =>
    obtain ⟨cf0, cm⟩ := p
    simp only [hb] at h
    replace h := Option.some.inj h
    have hfields : c.fields = (match sf with
        | some s => dinsert cf0 s rel
        | none => cf0) := by
      cases sf with
      | none => exact (congrArg (fun q => q.1.fields) h).symm
      | some s => exact (congrArg (fun q => q.1.fields) h).symm
    have hdeck : c.deck = ygetD kvs "deck" (.s dd) := by
      cases sf with
      | none => exact (congrArg (fun q => q.1.deck) h).symm
      | some s => exact (congrArg (fun q => q.1.deck) h).symm
    have hempty : alookup c.fields "" = none := by
      apply alookup_eq_none
      intro v hv
      have hkey : (∃ kk, (kk, ("" : String)) ∈ items) ∨ sf = some "" := by
        rw [hfields] at hv
        cases sf with
        | none =>
          rcases buildFields_keys fsys mdDir kvs items [] [] cf0 cm hb "" ⟨v, hv⟩
            with h1 | h1
          · obtain ⟨v2, hv2⟩ := h1; simp at hv2
          · exact Or.inl h1
        | some s =>
          rcases dinsert_keys cf0 s rel "" ⟨v, hv⟩ with heq | h2
          · exact Or.inr (by rw [heq])
          · rcases buildFields_keys fsys mdDir kvs items [] [] cf0 cm hb "" h2
              with h1 | h1
            · obtain ⟨v2, hv2⟩ := h1; simp at hv2
            · exact Or.inl h1
      rcases hkey with ⟨kk, hkk⟩ | hkey
      · exact hne (kk, "") hkk rfl
      · exact hsf hkey
    refine ⟨?_, hdeck, ?_⟩
    · have hguid : c.guid_basis =
          pyOptStr (alookup c.fields ((alookup items "q").getD "")) ++ "|" ++
          pyOptStr (alookup c.fields ((alookup items "a").getD "")) ++ "|" ++
          pyStr (ygetD kvs "deck" (.s dd)) ++ "|" ++ rel := by
        cases sf with
        | none =>
          have h1 := (congrArg (fun q => q.1.guid_basis) h).symm
          have h2 := (congrArg (fun q => q.1.fields) h).symm
          rw [h1, h2]
        | some s =>
          have h1 := (congrArg (fun q => q.1.guid_basis) h).symm
          have h2 := (congrArg (fun q => q.1.fields) h).symm
          rw [h1, h2]
      rw [hguid, hdeck]
      cases hq : alookup items "q" with
      | some fq =>
        cases ha : alookup items "a" with
        | some fa => simp only [Option.getD_some, Option.getD_none, hempty, pyOptStr]
        | none => simp only [Option.getD_some, Option.getD_none, hempty, pyOptStr]
      | none =>
        cases ha : alookup items "a" with
        | some fa => simp only [Option.getD_some, Option.getD_none, hempty, pyOptStr]
        | none => simp only [Option.getD_some, Option.getD_none, hempty, pyOptStr]
    · intro fq hq huniq hsfq hnodup
      have hmem : ("q", fq) ∈ items := mem_alookup_getD hq
      obtain ⟨v, hv, hlook⟩ := buildFields_lookup_key fsys mdDir kvs "q" fq
        (by decide) items [] [] cf0 cm hb hmem huniq hnodup
      refine ⟨v, hv, ?_⟩
      rw [hfields]
      cases sf with
      | none => exact hlook
      | some s =>
        have hsne : s ≠ fq := fun hs => hsfq (by rw [hs])
        rw [alookup_dinsert_other cf0 s rel fq hsne]
        exact hlook

/-- Counterexample for C1 as stated: with the validated explicit map
`question ↦ Front, answer ↦ Back` (so the `q` and `a` keys are unmapped),
the identity basis of the extracted card renders the two lookups as the
string `None`, not as the empty string the claim prescribes. -/
theorem guid_basis_unmapped_counterexample :
    validateModel
        { id := 1, name := "M", fields := [⟨"Front"⟩, ⟨"Back"⟩],
          templates := [⟨"CardT", "ask", "ans"⟩],
          yaml_field_map := some [("question", "Front"), ("answer", "Back")],
          css := "" }
      = .ok { id := 1, name := "M", fields := [⟨"Front"⟩, ⟨"Back"⟩],
              templates := [⟨"CardT", "ask", "ans"⟩],
              yaml_field_map := some [("question", "Front"), ("answer", "Back")],
              css := "" } ∧
    (find_anki_cards_in_file (fun _ => false) ["notes"] ["notes", "f.md"]
        { id := 1, name := "M", fields := [⟨"Front"⟩, ⟨"Back"⟩],
          templates := [⟨"CardT", "ask", "ans"⟩],
          yaml_field_map := some [("question", "Front"), ("answer", "Back")],
          css := "" }
        [.ok (.map [("question", .s "Q1"), ("answer", .s "A1")])]).1
      = [⟨[("Front", "Q1"), ("Back", "A1")], Yaml.arr [], Yaml.s "notes",
          "None|None|notes|f.md"⟩] ∧
    ("None|None|notes|f.md" : String)
      ≠ "" ++ "|" ++ "" ++ "|" ++ "notes" ++ "|" ++ "f.md" := by
  refine ⟨rfl, rfl, ?_⟩
  decide

/-- Witness for C1 at a concrete block with the default `q`/`a` map: the
identity basis is the mapped question content, answer content, deck
rendering and relative path joined by `|`. -/
theorem guid_basis_composition_witness :
    (⟨[("Front", "Q1"), ("Back", "A2")], Yaml.arr [], Yaml.s "notes",
        "Q1|A2|notes|f.md"⟩ : CardDict).guid_basis
      = (match alookup [("q", "Front"), ("a", "Back")] "q" with
         | some fq => pyOptStr (alookup (⟨[("Front", "Q1"), ("Back", "A2")],
             Yaml.arr [], Yaml.s "notes", "Q1|A2|notes|f.md"⟩ : CardDict).fields fq)
         | none => "None") ++ "|" ++
        (match alookup [("q", "Front"), ("a", "Back")] "a" with
         | some fa => pyOptStr (alookup (⟨[("Front", "Q1"), ("Back", "A2")],
             Yaml.arr [], Yaml.s "notes", "Q1|A2|notes|f.md"⟩ : CardDict).fields fa)
         | none => "None") ++ "|" ++
        pyStr (⟨[("Front", "Q1"), ("Back", "A2")], Yaml.arr [], Yaml.s "notes",
          "Q1|A2|notes|f.md"⟩ : CardDict).deck ++ "|" ++ "f.md" := by
  exact (guid_basis_composition (fun _ => false) ["notes"]
    { id := 1, name := "M", fields := [⟨"Front"⟩, ⟨"Back"⟩],
      templates := [⟨"CardT", "ask", "ans"⟩],
      yaml_field_map := some [("q", "Front"), ("a", "Back")], css := "" }
    [("q", "Front"), ("a", "Back")] none "notes" "f.md"
    [("q", .s "Q1"), ("a", .s "A2")]
    ⟨[("Front", "Q1"), ("Back", "A2")], Yaml.arr [], Yaml.s "notes",
      "Q1|A2|notes|f.md"⟩ []
    rfl (by decide) (by decide) (by decide)).1

/-! ## C5 -/

theorem lowerc_quote : lowerc '\x22' = '\x22' := by decide

theorem lowerc_eq' : lowerc '=' = '=' := by decide

theorem ciPref_self_append (pat : List Char) (h : ∀ p ∈ pat, lowerc p = p) :
    ∀ rest, ciPref pat (pat ++ rest) = true := by
  induction pat with
  | nil => intro rest; rfl
  | cons p ps ih =>
    intro rest
    rw [List.cons_append, ciPref, h p (List.mem_cons_self _ _)]
    simp only [beq_self_eq_true, Bool.true_and]
    exact ih (fun p2 hp2 => h p2 (List.mem_cons_of_mem _ hp2)) rest

theorem ciPref_of_isPrefixOf (pat : List Char) (hl : ∀ p ∈ pat, lowerc p = p) :
    ∀ l, pat.isPrefixOf l = true → ciPref pat l = true := by
  induction pat with
  | nil => intro l _; rfl
  | cons p ps ih =>
    intro l hp
    cases l with
    | nil => simp [List.isPrefixOf] at hp
    | cons c cs =>
      rw [List.isPrefixOf] at hp
      rw [Bool.and_eq_true] at hp
      obtain rfl : p = c := by simpa using hp.1
      rw [ciPref, hl p (List.mem_cons_self _ _)]
      simp only [beq_self_eq_true, Bool.true_and]
      exact ih (fun p2 hp2 => hl p2 (List.mem_cons_of_mem _ hp2)) cs hp.2

theorem ciPref_append_quote (pat : List Char) (hq : '\x22' ∉ pat) :
    ∀ xs ys, ciPref pat (xs ++ '\x22' :: ys) = ciPref pat xs := by
  induction pat with
  | nil => intro xs ys; rfl
  | cons p ps ih =>
    intro xs ys
    cases xs with
    | nil =>
      rw [List.nil_append, ciPref, ciPref, lowerc_quote]
      have hp : ('\x22' == p) = false := by
        rw [beq_eq_false_iff_ne]
        intro hpe
        exact hq (hpe ▸ List.mem_cons_self _ _)
      rw [hp, Bool.false_and]
    | cons x xs2 =>
      rw [List.cons_append, ciPref, ciPref,
        ih (fun hm => hq (List.mem_cons_of_mem _ hm)) xs2 ys]

theorem lookaheadBad_append_quote (xs ys : List Char) :
    lookaheadBad (xs ++ '\x22' :: ys) = lookaheadBad xs := by
  rw [lookaheadBad, lookaheadBad,
    ciPref_append_quote "http://".data (by decide) xs ys,
    ciPref_append_quote "https://".data (by decide) xs ys,
    ciPref_append_quote "data:".data (by decide) xs ys]

theorem takeWhile_append_all {p : Char → Bool} :
    ∀ (xs ys : List Char), (∀ x ∈ xs, p x = true) →
      (xs ++ ys).takeWhile p = xs ++ ys.takeWhile p := by
  intro xs ys
  induction xs with
  | nil => intro _; rfl
  | cons x xs2 ih =>
    intro h
    rw [List.cons_append, List.takeWhile_cons, h x (List.mem_cons_self _ _),
      List.cons_append]
    rw [ih (fun x2 hx2 => h x2 (List.mem_cons_of_mem _ hx2))]
    simp

theorem dropWhile_append_all {p : Char → Bool} :
    ∀ (xs ys : List Char), (∀ x ∈ xs, p x = true) →
      (xs ++ ys).dropWhile p = ys.dropWhile p := by
  intro xs ys
  induction xs with
  | nil => intro _; rfl
  | cons x xs2 ih =>
    intro h
    rw [List.cons_append, List.dropWhile_cons, h x (List.mem_cons_self _ _)]
    simp only [if_true]
    exact ih (fun x2 hx2 => h x2 (List.mem_cons_of_mem _ hx2))

theorem contAt_guard_false (l : List Char) (h : ciPref "src=\"".data l = false) :
    contAt l = none := by
  rw [contAt, if_neg]
  rw [h]
  exact Bool.false_ne_true

theorem tagSearch_src_none (xs : List Char)
    (h : ∀ ch ∈ xs, ch ≠ '\x22' ∧ ch ≠ '>' ∧ ch ≠ '=') :
    tagSearch (xs ++ ['\x22', '>']) = none := by
  induction xs with
  | nil => decide
  | cons x xs2 ih =>
    have hx := h x (List.mem_cons_self _ _)
    rw [List.cons_append, tagSearch, if_neg hx.2.1,
      ih (fun ch hch => h ch (List.mem_cons_of_mem _ hch))]
    simp only
    apply contAt_guard_false
    rcases xs2 with _ | ⟨y, _ | ⟨z, _ | ⟨w, t⟩⟩⟩
    · simp [ciPref, lowerc_quote]
    · simp [ciPref, lowerc_quote]
    · simp [ciPref, lowerc_quote]
    · have hw := (h w (by simp)).2.2
      have hwl : (lowerc w == '=') = false := by
        rw [beq_eq_false_iff_ne]
        intro hl
        exact hw (lowerc_fix (by decide) hl)
      simp [ciPref, hwl]

theorem contAt_canonical (src : List Char) (hs0 : src ≠ [])
    (hq : ∀ ch ∈ src, ch ≠ '\x22') :
    contAt ("src=\"".data ++ (src ++ ['\x22', '>']))
      = if lookaheadBad src then none else some (String.mk src, []) := by
  rw [contAt, if_pos (ciPref_self_append "src=\"".data (by decide) (src ++ ['\x22', '>']))]
  have hdrop : ("src=\"".data ++ (src ++ ['\x22', '>'])).drop 5 = src ++ '\x22' :: ['>'] := by
    rfl
  rw [hdrop]
  simp only [lookaheadBad_append_quote src ['>']]
  by_cases hla : lookaheadBad src = true
  · rw [if_pos hla, if_pos hla]
  · rw [if_neg hla, if_neg hla]
    have hall : ∀ x ∈ src, (fun c => decide (c ≠ '\x22')) x = true := by
      intro x hx
      simpa using hq x hx
    have hd1 : decide (('\x22' : Char) ≠ '\x22') = false := by decide
    have hd2 : decide (('>' : Char) ≠ '>') = false := by decide
    simp only [takeWhile_append_all src ('\x22' :: ['>']) hall,
      dropWhile_append_all src ('\x22' :: ['>']) hall,
      List.takeWhile_cons, List.dropWhile_cons, hd1, hd2, if_false,
      Bool.false_eq_true, List.append_nil]
    rw [if_neg (by simpa [List.isEmpty_iff] using hs0)]

theorem tagSearch_canonical (src : List Char) (hs0 : src ≠ [])
    (hsc : ∀ ch ∈ src, ch ≠ '\x22' ∧ ch ≠ '>' ∧ ch ≠ '=') :
    tagSearch ("src=\"".data ++ (src ++ ['\x22', '>']))
      = if lookaheadBad src then none else some (String.mk src, []) := by
  have h5 : tagSearch (src ++ ['\x22', '>']) = none :=
    tagSearch_src_none src hsc
  have h4 : tagSearch ('\x22' :: (src ++ ['\x22', '>'])) = none := by
    rw [tagSearch, if_neg (by decide), h5]
    simp only
    exact contAt_guard_false _ (by simp [ciPref, lowerc_quote])
  have h3 : tagSearch ('=' :: '\x22' :: (src ++ ['\x22', '>'])) = none := by
    rw [tagSearch, if_neg (by decide), h4]
    simp only
    exact contAt_guard_false _ (by simp [ciPref, lowerc_eq'])
  have h2 : tagSearch ('c' :: '=' :: '\x22' :: (src ++ ['\x22', '>'])) = none := by
    rw [tagSearch, if_neg (by decide), h3]
    simp only
    exact contAt_guard_false _ (by simp [ciPref, show lowerc 'c' = 'c' from by decide])
  have h1 : tagSearch ('r' :: 'c' :: '=' :: '\x22' :: (src ++ ['\x22', '>'])) = none := by
    rw [tagSearch, if_neg (by decide), h2]
    simp only
    exact contAt_guard_false _ (by simp [ciPref, show lowerc 'r' = 'r' from by decide])
  have hshape : "src=\"".data ++ (src ++ ['\x22', '>'])
      = 's' :: 'r' :: 'c' :: '=' :: '\x22' :: (src ++ ['\x22', '>']) := rfl
  rw [hshape, tagSearch, if_neg (by decide), h1]
  simp only
  rw [← hshape]
  exact contAt_canonical src hs0 (fun ch hch => (hsc ch hch).1)

theorem matchAt_canonical (src : List Char) (hs0 : src ≠ [])
    (hsc : ∀ ch ∈ src, ch ≠ '\x22' ∧ ch ≠ '>' ∧ ch ≠ '=') :
    matchAt ("<img src=\"".data ++ src ++ ['\x22', '>'])
      = if lookaheadBad src then none
        else some ("<img src=\"".data ++ src ++ ['\x22', '>'], String.mk src, []) := by
  have hshape : "<img src=\"".data ++ src ++ ['\x22', '>']
      = "<img".data ++ (' ' :: ("src=\"".data ++ (src ++ ['\x22', '>']))) := by
    simp [List.append_assoc]
  rw [matchAt, if_pos]
  · have hdrop : ("<img src=\"".data ++ src ++ ['\x22', '>']).drop 4
        = ' ' :: ("src=\"".data ++ (src ++ ['\x22', '>'])) := by
      rfl
    rw [hdrop]
    simp only [show isPySpace ' ' = true from by decide, if_true]
    rw [tagSearch_canonical src hs0 hsc]
    by_cases hla : lookaheadBad src = true
    · rw [if_pos hla, if_pos hla]
    · rw [if_neg hla, if_neg hla]
      simp only [List.length_nil, Nat.sub_zero, List.take_length]
  · rw [hshape]
    exact ciPref_self_append "<img".data (by decide) _

theorem isPrefixOf_self_append : ∀ (p r : List Char), p.isPrefixOf (p ++ r) = true := by
  intro p
  induction p with
  | nil => intro r; simp [List.isPrefixOf]
  | cons x xs ih =>
    intro r
    rw [List.cons_append, List.isPrefixOf]
    simp only [beq_self_eq_true, Bool.true_and]
    exact ih r

theorem replaceFirst_canonical (src base : List Char) :
    replaceFirst ("<img src=\"".data ++ src ++ ['\x22', '>'])
        ("src=\"".data ++ src ++ ['\x22'])
        ("src=\"".data ++ base ++ ['\x22'])
      = "<img src=\"".data ++ base ++ ['\x22', '>'] := by
  have hpat : "src=\"".data ++ src ++ ['\x22']
      = 's' :: 'r' :: 'c' :: '=' :: '\x22' :: (src ++ ['\x22']) := rfl
  have hct : "<img src=\"".data ++ src ++ ['\x22', '>']
      = '<' :: 'i' :: 'm' :: 'g' :: ' ' ::
          ('s' :: 'r' :: 'c' :: '=' :: '\x22' :: (src ++ ['\x22', '>'])) := rfl
  have hs : ('s' :: 'r' :: 'c' :: '=' :: '\x22' :: (src ++ ['\x22', '>']) : List Char)
      = ('s' :: 'r' :: 'c' :: '=' :: '\x22' :: (src ++ ['\x22'])) ++ ['>'] := by
    simp [List.append_assoc]
  rw [hct, hpat]
  rw [replaceFirst, if_neg (by simp [List.isPrefixOf])]
  rw [replaceFirst, if_neg (by simp [List.isPrefixOf])]
  rw [replaceFirst, if_neg (by simp [List.isPrefixOf])]
  rw [replaceFirst, if_neg (by simp [List.isPrefixOf])]
  rw [replaceFirst, if_neg (by simp [List.isPrefixOf])]
  rw [replaceFirst, hs, if_pos (isPrefixOf_self_append _ _), List.drop_left]
  simp [List.append_assoc]

theorem imgScan_nil (fsys : List String → Bool) (mdDir : List String) :
    ∀ n, imgScan fsys mdDir n [] = ([], []) := by
  intro n
  cases n with
  | zero => rfl
  | succ n2 => rfl

theorem imgScan_match_step (fsys : List String → Bool) (mdDir : List String)
    (n : Nat) (c : Char) (cs : List Char) (t : List Char) (v : String)
    (rest : List Char) (hm : matchAt (c :: cs) = some (t, v, rest)) :
    imgScan fsys mdDir (n + 1) (c :: cs)
      = ((replace_src fsys mdDir t v).1 ++ (imgScan fsys mdDir n rest).1,
         (replace_src fsys mdDir t v).2 ++ (imgScan fsys mdDir n rest).2) := by
  rw [imgScan, hm]

theorem imgScan_miss_step (fsys : List String → Bool) (mdDir : List String)
    (n : Nat) (c : Char) (cs : List Char) (hm : matchAt (c :: cs) = none) :
    imgScan fsys mdDir (n + 1) (c :: cs)
      = (c :: (imgScan fsys mdDir n cs).1, (imgScan fsys mdDir n cs).2) := by
  rw [imgScan, hm]

theorem matchAt_none_of_no_lt (c : Char) (cs : List Char) (hc : c ≠ '<') :
    matchAt (c :: cs) = none := by
  rw [matchAt, if_neg]
  intro hpref
  rw [show "<img".data = '<' :: "img".data from rfl, ciPref, Bool.and_eq_true] at hpref
  have := lowerc_fix (show '<' ∉ lcLetters from by decide) (by simpa using hpref.1)
  exact hc this

theorem imgScan_no_lt (fsys : List String → Bool) (mdDir : List String) :
    ∀ (n : Nat) (l : List Char), '<' ∉ l → imgScan fsys mdDir n l = (l, []) := by
  intro n
  induction n with
  | zero => intro l _; rfl
  | succ n2 ih =>
    intro l hl
    cases l with
    | nil => rfl
    | cons c cs =>
      have hc : c ≠ '<' := fun hc => hl (hc ▸ List.mem_cons_self _ _)
      rw [imgScan_miss_step fsys mdDir n2 c cs (matchAt_none_of_no_lt c cs hc),
        ih cs (fun hm => hl (List.mem_cons_of_mem _ hm))]

theorem data_mk (l : List Char) : (String.mk l).data = l := rfl

theorem process_eq_of_scan (fsys : List String → Bool) (mdDir : List String)
    (l : List Char) (o : List Char × List String)
    (h : imgScan fsys mdDir l.length l = o) :
    process_field_for_images fsys mdDir (String.mk l)
      = (String.mk o.1, mydedup o.2) := by
  have hdef : process_field_for_images fsys mdDir (String.mk l)
      = (String.mk (imgScan fsys mdDir l.length l).1,
         mydedup (imgScan fsys mdDir l.length l).2) := rfl
  rw [hdef, h]

/-- C5 (corrected): processing a canonical single-image field
`<img src="SRC">` (attribute spelled in lowercase; `SRC` non-empty and free
of quote, angle-bracket and equals characters): a source beginning with
`http://`, `https://` or `data:` is left unchanged with no media; a local
source resolving (against the document directory) to an existing file is
rewritten to the base filename and its absolute path recorded; a local
source that does not resolve is left unchanged with no media.  (A matched
tag whose attribute is spelled in any other case, e.g. `SRC=`, is matched
and recorded but never rewritten — the rewrite is a case-sensitive literal
replacement; see the counterexample.) -/
theorem img_tag_processing (fsys : List String → Bool) (mdDir : List String)
    (src : List Char) (hs0 : src ≠ [])
    (hsc : ∀ ch ∈ src, ch ≠ '\x22' ∧ ch ≠ '>' ∧ ch ≠ '<' ∧ ch ≠ '=') :
    (("http://".data.isPrefixOf src = true ∨ "https://".data.isPrefixOf src = true ∨
        "data:".data.isPrefixOf src = true) →
      process_field_for_images fsys mdDir
          (String.mk ("<img src=\"".data ++ src ++ ['\x22', '>']))
        = (String.mk ("<img src=\"".data ++ src ++ ['\x22', '>']), [])) ∧
    (lookaheadBad src = false →
      fsys (resolvePath mdDir (String.mk src)) = true →
      process_field_for_images fsys mdDir
          (String.mk ("<img src=\"".data ++ src ++ ['\x22', '>']))
        = (String.mk ("<img src=\"".data ++
              (lastName (resolvePath mdDir (String.mk src))).data ++ ['\x22', '>']),
           [pathToString (resolvePath mdDir (String.mk src))])) ∧
    (lookaheadBad src = false →
      fsys (resolvePath mdDir (String.mk src)) = false →
      process_field_for_images fsys mdDir
          (String.mk ("<img src=\"".data ++ src ++ ['\x22', '>']))
        = (String.mk ("<img src=\"".data ++ src ++ ['\x22', '>']), [])) := by
  have hsc3 : ∀ ch ∈ src, ch ≠ '\x22' ∧ ch ≠ '>' ∧ ch ≠ '=' :=
    fun ch h => ⟨(hsc ch h).1, (hsc ch h).2.1, (hsc ch h).2.2.2⟩
  refine ⟨?_, ?_, ?_⟩
  · intro hlit
    have hla : lookaheadBad src = true := by
      rcases hlit with h | h | h
      · have h2 := ciPref_of_isPrefixOf "http://".data (by decide) src h
        simp [lookaheadBad, h2]
      · have h2 := ciPref_of_isPrefixOf "https://".data (by decide) src h
        simp [lookaheadBad, h2]
      · have h2 := ciPref_of_isPrefixOf "data:".data (by decide) src h
        simp [lookaheadBad, h2]
    have hm0 : matchAt ('<' :: ('i' :: 'm' :: 'g' :: ' ' :: 's' :: 'r' :: 'c' :: '=' ::
        '\x22' :: (src ++ ['\x22', '>']))) = none := by
      have h3 := matchAt_canonical src hs0 hsc3
      rw [if_pos hla] at h3
      exact h3
    have hnl : '<' ∉ ('i' :: 'm' :: 'g' :: ' ' :: 's' :: 'r' :: 'c' :: '=' ::
        '\x22' :: (src ++ ['\x22', '>']) : List Char) := by
      intro hmem
      simp only [List.mem_cons, List.mem_append] at hmem
      rcases hmem with h | h | h | h | h | h | h | h | h | h
      · exact absurd h (by decide)
      · exact absurd h (by decide)
      · exact absurd h (by decide)
      · exact absurd h (by decide)
      · exact absurd h (by decide)
      · exact absurd h (by decide)
      · exact absurd h (by decide)
      · exact absurd h (by decide)
      · exact absurd h (by decide)
      · rcases h with h | h
        · exact (hsc '<' h).2.2.1 rfl
        · rcases h with h | h
          · exact absurd h (by decide)
          · simp at h
    have hstep : imgScan fsys mdDir
        (('i' :: 'm' :: 'g' :: ' ' :: 's' :: 'r' :: 'c' :: '=' ::
          '\x22' :: (src ++ ['\x22', '>'])).length + 1)
        ('<' :: ('i' :: 'm' :: 'g' :: ' ' :: 's' :: 'r' :: 'c' :: '=' ::
          '\x22' :: (src ++ ['\x22', '>'])))
        = ("<img src=\"".data ++ src ++ ['\x22', '>'], []) := by
      rw [imgScan_miss_step fsys mdDir _ _ _ hm0, imgScan_no_lt fsys mdDir _ _ hnl]
      rfl
    have hstep2 : imgScan fsys mdDir ("<img src=\"".data ++ src ++ ['\x22', '>']).length
        ("<img src=\"".data ++ src ++ ['\x22', '>'])
        = ("<img src=\"".data ++ src ++ ['\x22', '>'], []) := hstep
    have hp := process_eq_of_scan fsys mdDir _ _ hstep2
    rw [hp]
    simp [mydedup]
  · intro hla hfs
    have hmm : matchAt ('<' :: ('i' :: 'm' :: 'g' :: ' ' :: 's' :: 'r' :: 'c' :: '=' ::
        '\x22' :: (src ++ ['\x22', '>'])))
        = some ("<img src=\"".data ++ src ++ ['\x22', '>'], String.mk src, []) := by
      have h3 := matchAt_canonical src hs0 hsc3
      rw [if_neg (by rw [hla]; exact Bool.false_ne_true)] at h3
      exact h3
    have hrs : replace_src fsys mdDir ("<img src=\"".data ++ src ++ ['\x22', '>'])
        (String.mk src)
        = ("<img src=\"".data ++
            (lastName (resolvePath mdDir (String.mk src))).data ++ ['\x22', '>'],
           [pathToString (resolvePath mdDir (String.mk src))]) := by
      rw [replace_src]
      simp only [hfs, if_true, data_mk]
      rw [replaceFirst_canonical src (lastName (resolvePath mdDir (String.mk src))).data]
    have hstep := imgScan_match_step fsys mdDir
      ('i' :: 'm' :: 'g' :: ' ' :: 's' :: 'r' :: 'c' :: '=' ::
        '\x22' :: (src ++ ['\x22', '>'])).length '<'
      ('i' :: 'm' :: 'g' :: ' ' :: 's' :: 'r' :: 'c' :: '=' ::
        '\x22' :: (src ++ ['\x22', '>']))
      ("<img src=\"".data ++ src ++ ['\x22', '>']) (String.mk src) [] hmm
    rw [imgScan_nil, hrs] at hstep
    simp only [List.append_nil] at hstep
    have hstep2 : imgScan fsys mdDir ("<img src=\"".data ++ src ++ ['\x22', '>']).length
        ("<img src=\"".data ++ src ++ ['\x22', '>'])
        = ("<img src=\"".data ++
            (lastName (resolvePath mdDir (String.mk src))).data ++ ['\x22', '>'],
           [pathToString (resolvePath mdDir (String.mk src))]) := hstep
    have hp := process_eq_of_scan fsys mdDir _ _ hstep2
    rw [hp]
    simp [mydedup]
  · intro hla hfs
    have hmm : matchAt ('<' :: ('i' :: 'm' :: 'g' :: ' ' :: 's' :: 'r' :: 'c' :: '=' ::
        '\x22' :: (src ++ ['\x22', '>'])))
        = some ("<img src=\"".data ++ src ++ ['\x22', '>'], String.mk src, []) := by
      have h3 := matchAt_canonical src hs0 hsc3
      rw [if_neg (by rw [hla]; exact Bool.false_ne_true)] at h3
      exact h3
    have hrs : replace_src fsys mdDir ("<img src=\"".data ++ src ++ ['\x22', '>'])
        (String.mk src)
        = ("<img src=\"".data ++ src ++ ['\x22', '>'], []) := by
      rw [replace_src]
      simp only [hfs, data_mk]
      simp
    have hstep := imgScan_match_step fsys mdDir
      ('i' :: 'm' :: 'g' :: ' ' :: 's' :: 'r' :: 'c' :: '=' ::
        '\x22' :: (src ++ ['\x22', '>'])).length '<'
      ('i' :: 'm' :: 'g' :: ' ' :: 's' :: 'r' :: 'c' :: '=' ::
        '\x22' :: (src ++ ['\x22', '>']))
      ("<img src=\"".data ++ src ++ ['\x22', '>']) (String.mk src) [] hmm
    rw [imgScan_nil, hrs] at hstep
    simp only [List.append_nil] at hstep
    have hstep2 : imgScan fsys mdDir ("<img src=\"".data ++ src ++ ['\x22', '>']).length
        ("<img src=\"".data ++ src ++ ['\x22', '>'])
        = ("<img src=\"".data ++ src ++ ['\x22', '>'], []) := hstep
    have hp := process_eq_of_scan fsys mdDir _ _ hstep2
    rw [hp]
    simp [mydedup]

/-- Counterexample for C5 as stated: the tag `<img SRC="imgs/a.png">` (an
img tag, matched case-insensitively) refers to an existing local file; its
absolute path is recorded as media but the tag text is NOT rewritten to the
base filename — `str.replace` looks for the lowercase `src="..."` literal
and finds nothing — contradicting the claim that such a tag has its src
attribute rewritten. -/
theorem img_uppercase_src_counterexample :
    process_field_for_images (fun p => p == ["n", "imgs", "a.png"]) ["n"]
        "<img SRC=\"imgs/a.png\">"
      = ("<img SRC=\"imgs/a.png\">", ["/n/imgs/a.png"]) ∧
    ("<img SRC=\"imgs/a.png\">" : String) ≠ "<img SRC=\"a.png\">" := by
  constructor
  · decide
  · decide

/-- Witness for C5 at a concrete local image: `<img src="pic.png">` with
the file present in the document directory is rewritten (here to the same
base name) and its absolute path recorded. -/
theorem img_tag_processing_witness :
    process_field_for_images (fun p => p == ["n", "pic.png"]) ["n"]
        (String.mk ("<img src=\"".data ++ "pic.png".data ++ ['\x22', '>']))
      = (String.mk ("<img src=\"".data ++
            (lastName (resolvePath ["n"] (String.mk "pic.png".data))).data
            ++ ['\x22', '>']),
         [pathToString (resolvePath ["n"] (String.mk "pic.png".data))]) := by
  exact (img_tag_processing (fun p => p == ["n", "pic.png"]) ["n"] "pic.png".data
    (by decide) (by decide)).2.1 (by decide) (by decide)
